import Mathlib

/-!
Shallow embedding of the patch-parsing core of the `ai-tools` repository
(`src/ai_tools/core/patch_ops.py`) together with the dump round-trip pair
(`src/ai_tools/utils/filesystem.py::format_file_content` and
`src/ai_tools/utils/temp_storage.py::parse_dump_file`).

Text is modelled as `List Char`.  Python's logging side channel
(`log_warning`) is modelled by returning a `List Diag` of diagnostics next
to each function's value.  Character classes (`\w`, `\s`) are modelled over
ASCII, which covers every input appearing in the claims.
-/

namespace AiTools

abbrev Chars := List Char

/-- Python whitespace for `str.split()` / `str.strip()` (ASCII fragment):
space, tab, newline, carriage return, vertical tab, form feed. -/
def isPySpace (c : Char) : Bool :=
  c = ' ' || c = '\t' || c = '\n' || c = '\r' || c = '\x0B' || c = '\x0C'

/-- Python `text.split()` with no separator: split on runs of whitespace,
dropping empty tokens.  Structural recursion on a fuel bound (one unit per
consumed character) so that concrete inputs evaluate by `decide`/`rfl`. -/
def splitWsF : Nat → Chars → List Chars
  | 0, _ => []
  | _, [] => []
  | fuel + 1, c :: rest =>
    if isPySpace c then splitWsF fuel rest
    else
      (c :: rest.takeWhile (fun d => !isPySpace d)) ::
        splitWsF fuel (rest.drop (rest.takeWhile (fun d => !isPySpace d)).length)

/-- Python `text.split()`. -/
def splitWs (l : Chars) : List Chars := splitWsF l.length l

/-- Python `s.strip()` (trailing side). -/
def dropTrailingWs (l : Chars) : Chars := (l.reverse.dropWhile isPySpace).reverse

/-- Python `s.strip()`: remove leading and trailing whitespace. -/
def pyStrip (l : Chars) : Chars := dropTrailingWs (l.dropWhile isPySpace)

/-- `MARKDOWN_STRIP_CHARS = r"*`_[]()<>!"` from `patch_ops.py`. -/
def stripSet : Chars := ['*', '`', '_', '[', ']', '(', ')', '<', '>', '!']

/-- Python `s.strip(chars)`: remove characters of `s` from both ends. -/
def pyStripChars (l : Chars) (s : Chars) : Chars :=
  ((l.dropWhile (· ∈ s)).reverse.dropWhile (· ∈ s)).reverse

/-- `_clean_markdown_wrappers` from `patch_ops.py`. -/
def cleanMarkdownWrappers (token : Chars) : Chars :=
  let t1 := if token.getLast? = some '.' ∧ 1 < token.length then token.dropLast else token
  let cleaned := pyStripChars t1 stripSet
  if cleaned.getLast? = some '.' ∧ 1 < cleaned.length then
    let w := cleaned.dropLast
    if '.' ∈ w then w else cleaned
  else cleaned

/-- Python `\w` (ASCII model): letters, digits, underscore. -/
def isWordChar (c : Char) : Bool := c.isAlphanum || c = '_'

/-- The character class `[\w\-.]` of `FILE_PATH_PATTERN`. -/
def isSegChar (c : Char) : Bool := isWordChar c || c = '-' || c = '.'

/-- Path separators `[/\\]` accepted by `FILE_PATH_PATTERN`. -/
def isSep (c : Char) : Bool := c = '/' || c = '\\'

/-- The extension class `[A-Za-z0-9]` of `FILE_PATH_PATTERN`. -/
def isAsciiAlnum (c : Char) : Bool := c.isAlphanum

/-- Split on `/` and `\`, keeping empty parts (like Python `re` seeing
consecutive separators). -/
def splitSep : Chars → List Chars
  | [] => [[]]
  | c :: rest =>
    if isSep c then [] :: splitSep rest
    else
      match splitSep rest with
      | [] => [[c]]
      | p :: ps => (c :: p) :: ps

/-- The final component `[\w\-.]+\.[A-Za-z0-9]+` of `FILE_PATH_PATTERN`:
a nonempty `[\w\-.]` stem, a dot, and a nonempty alphanumeric extension.
Resolved form: the extension is the maximal alphanumeric suffix, preceded
by a dot, preceded by a nonempty stem. -/
def lastPartOk (p : Chars) : Bool :=
  let r := p.reverse
  let ext := r.takeWhile isAsciiAlnum
  match r.drop ext.length with
  | '.' :: stemR => decide (ext ≠ []) && decide (stemR ≠ []) && stemR.all isSegChar
  | _ => false

/-- Core of `FILE_PATH_PATTERN` = `^(?:\.[/\\])?(?:[\w\-.]+[/\\])*[\w\-.]+\.[A-Za-z0-9]+$`
without the `$`-vs-trailing-newline subtlety.  Since `.` is itself a
`[\w\-.]` character, the optional leading `./` is subsumed by the segment
rule, so the pattern accepts exactly: separator-split parts, all non-final
parts nonempty runs of `[\w\-.]`, final part `stem.ext`. -/
def patCore (tok : Chars) : Bool :=
  match (splitSep tok).reverse with
  | [] => false
  | lastP :: initR =>
    lastPartOk lastP && initR.all (fun q => decide (q ≠ []) && q.all isSegChar)

/-- `FILE_PATH_PATTERN.match(tok)`: Python `$` also matches just before a
single trailing newline. -/
def filePathMatch (tok : Chars) : Bool :=
  patCore tok || (tok.getLast? = some '\n' && patCore tok.dropLast)

/-- Diagnostics emitted through `log_warning` in `patch_ops.py`. -/
inductive Diag where
  | pathTraversal (tok : Chars)
  | unclosedFence (line : Nat)
  | orphanedBlock (preview : Chars)
deriving DecidableEq, Repr

/-- Token cleaning in `_extract_path_from_text`: markdown-wrapper strip
followed by removal of one leading `@`. -/
def pathToken (tok : Chars) : Chars :=
  let cleaned := cleanMarkdownWrappers tok
  if cleaned.head? = some '@' then cleaned.tail else cleaned

/-- The token loop of `_extract_path_from_text`: returns the recorded
candidate paths in order of appearance, plus path-traversal warnings. -/
def extractPathTokens : List Chars → List Chars × List Diag
  | [] => ([], [])
  | tok :: rest =>
    let c := pathToken tok
    if filePathMatch c then
      if c.take 2 = ['.', '.'] then
        ((extractPathTokens rest).1, .pathTraversal c :: (extractPathTokens rest).2)
      else (c :: (extractPathTokens rest).1, (extractPathTokens rest).2)
    else extractPathTokens rest

/-- `_extract_path_from_text` from `patch_ops.py`: last recorded candidate. -/
def extractPathFromText (text : Chars) : Option Chars × List Diag :=
  ((extractPathTokens (splitWs text)).1.getLast?, (extractPathTokens (splitWs text)).2)

/-- Fence-marker characters (the class `` [`~] ``). -/
def isFence (c : Char) : Bool := c = '`' || c = '~'

/-- Whether the pattern `` [`~]{3,} `` matches at the head of the list. -/
def tripleAt : Chars → Bool
  | a :: b :: c :: _ => isFence a && isFence b && isFence c
  | _ => false

/-- Whether `` [`~]{3,} `` matches anywhere in the list. -/
def hasTriple : Chars → Bool
  | a :: b :: c :: rest => (isFence a && isFence b && isFence c) || hasTriple (b :: c :: rest)
  | _ => false

/-- One `finditer` match of ``r"([`~]{3,})([^\s]*)"`` together with the
derived quantities `_find_blocks_with_regex` computes for it:
`line = text.count('\n', 0, start) + 1` and
`contentStart = text.find('\n', end) + 1` (or `len(text)`). -/
structure FMatch where
  start : Nat
  marker : Chars
  info : Chars
  line : Nat
  contentStart : Nat
deriving DecidableEq, Repr

/-- `pattern.finditer(text)` for ``([`~]{3,})([^\s]*)`` with the derived
per-match data; `pos` is the absolute offset of the list's head and `nl`
the number of newlines before it.  Fuel-structured (one unit per consumed
character). -/
def findMarkersF : Nat → Chars → Nat → Nat → List FMatch
  | 0, _, _, _ => []
  | _, [], _, _ => []
  | fuel + 1, c :: rest, pos, nl =>
    if tripleAt (c :: rest) then
      let marker := c :: rest.takeWhile isFence
      let afterM := rest.drop (rest.takeWhile isFence).length
      let info := afterM.takeWhile (fun d => !isPySpace d)
      let afterI := afterM.drop info.length
      let mEnd := pos + marker.length + info.length
      let cStart :=
        match afterI.findIdx? (· = '\n') with
        | some k => mEnd + k + 1
        | none => mEnd + afterI.length
      ⟨pos, marker, info, nl + 1, cStart⟩ :: findMarkersF fuel afterI mEnd nl
    else
      findMarkersF fuel rest (pos + 1) (nl + if c = '\n' then 1 else 0)

/-- `pattern.finditer(text)` for ``([`~]{3,})([^\s]*)``. -/
def findMarkers (l : Chars) (pos nl : Nat) : List FMatch := findMarkersF l.length l pos nl

/-- A stack frame of `_find_blocks_with_regex` (an open fence). -/
structure Frame where
  marker : Chars
  info : Chars
  line : Nat
  contentStart : Nat
  openStart : Nat
deriving DecidableEq, Repr

/-- `(opening_tag_start, content_start, content_end, content)`. -/
abbrev Block := Nat × Nat × Nat × Chars

/-- Python slice `l[s:e]`. -/
def pySlice (l : Chars) (s e : Nat) : Chars := (l.drop s).take (e - s)

/-- One iteration of the marker loop in `_find_blocks_with_regex`. -/
def scanStep (text : Chars) : List Frame × List Block → FMatch → List Frame × List Block
  | (stack, blocks), m =>
    match stack with
    | parent :: rest =>
      if m.marker.head? = parent.marker.head? ∧ parent.marker.length ≤ m.marker.length ∧
          m.info = [] then
        match rest with
        | [] =>
          let endOff :=
            if 0 < m.start ∧ text.getD (m.start - 1) ' ' = '\n' then m.start - 1 else m.start
          ([], blocks ++
            [(parent.openStart, parent.contentStart, endOff,
              pySlice text parent.contentStart endOff)])
        | _ => (rest, blocks)
      else (⟨m.marker, m.info, m.line, m.contentStart, m.start⟩ :: stack, blocks)
    | [] => (⟨m.marker, m.info, m.line, m.contentStart, m.start⟩ :: stack, blocks)

/-- Stable insertion by opening-tag offset (model of Python's stable
`list.sort(key=lambda b: b[0])`; the scanner never emits two blocks with
the same opening offset, so any correct sort agrees). -/
def insertBlock (x : Block) : List Block → List Block
  | [] => [x]
  | y :: ys => if x.1 ≤ y.1 then x :: y :: ys else y :: insertBlock x ys

/-- `found_blocks.sort(key=lambda b: b[0])`. -/
def sortBlocks (l : List Block) : List Block := l.foldr insertBlock []

/-- `_find_blocks_with_regex` from `patch_ops.py`; the second component
lists the unclosed-fence warnings in Python's emission order (bottom of
the stack first). -/
def findBlocksWithRegex (text : Chars) : List Block × List Diag :=
  let st := (findMarkers text 0 0).foldl (scanStep text) ([], [])
  (sortBlocks st.2, st.1.reverse.map (fun f => Diag.unclosedFence f.line))

/-- `re.fullmatch(r"```[a-zA-Z0-9]*\n(.*?)\n```", stripped, re.DOTALL)`:
succeeds iff the text is ``` ``` ``` + alphanumeric run + newline + body
ending in `\n` + ``` ``` ``` ; returns the group between. -/
def outerUnwrap (s : Chars) : Option Chars :=
  if s.take 3 = ['`', '`', '`'] then
    let rest := s.drop 3
    let lang := rest.takeWhile isAsciiAlnum
    match rest.drop lang.length with
    | '\n' :: body =>
      if 4 ≤ body.length ∧ body.drop (body.length - 4) = ['\n', '`', '`', '`'] then
        some (body.take (body.length - 4))
      else none
    | _ => none
  else none

/-- `path.replace('\\', '/')`. -/
def normalizeSlashes (p : Chars) : Chars := p.map (fun c => if c = '\\' then '/' else c)

/-- Python `s.split('\n', 1)[0]`. -/
def firstLine (l : Chars) : Chars := l.takeWhile (· ≠ '\n')

/-- `block_preview[:70]` from the orphaned-block warning in
`parse_patch_content`. -/
def blockPreview (content : Chars) : Chars :=
  let s := pyStrip content
  if s = [] then [] else (firstLine s).take 70

/-- `re.search(r'[`~]{3,}', l)`: end offset of the first marker run. -/
def searchFenceEnd : Chars → Option Nat
  | [] => none
  | c :: rest =>
    if tripleAt (c :: rest) then some (1 + (rest.takeWhile isFence).length)
    else (searchFenceEnd rest).map (· + 1)

/-- One iteration of the patch loop in `parse_patch_content`.  The state is
`(patches, diagnostics, last_block_end)`. -/
def loopStep (text : Chars) :
    List (Chars × Chars) × List Diag × Nat → Block → List (Chars × Chars) × List Diag × Nat
  | (patches, diags, lastEnd), (openStart, _bStart, bEnd, content) =>
    let searchSpace := pySlice text lastEnd openStart
    let pr := extractPathFromText searchSpace
    match pr.1 with
    | some p =>
      (patches ++ [(normalizeSlashes p, pyStrip content)], diags ++ pr.2,
        match searchFenceEnd (text.drop bEnd) with
        | some e => bEnd + e
        | none => bEnd)
    | none =>
      (patches, diags ++ pr.2 ++ [.orphanedBlock (blockPreview content)],
        match searchFenceEnd (text.drop bEnd) with
        | some e => bEnd + e
        | none => bEnd)

/-- The block-scan-plus-patch-loop tail of `parse_patch_content`, applied
to the effective document (after the optional whole-paste unwrap). -/
def parseBody (body : Chars) : List (Chars × Chars) × List Diag :=
  let bs := findBlocksWithRegex body
  match bs.1 with
  | [] => ([], bs.2)
  | blocks =>
    let res := blocks.foldl (loopStep body) ([], [], 0)
    (res.1, bs.2 ++ res.2.1)

/-- `parse_patch_content` from `patch_ops.py`, with its warnings. -/
def parsePatchContent (text : Chars) : List (Chars × Chars) × List Diag :=
  if pyStrip text = [] then ([], [])
  else
    match outerUnwrap (pyStrip text) with
    | some mid => parseBody mid
    | none => parseBody text

/-! ### A structured family of well-formed multi-block documents

`renderDoc` builds a document from entries `(pre, c)`: arbitrary prose
`pre` (ending in a newline, containing no fence run), a ```` ``` ```` block
holding `c`, and a closing ```` ``` ```` line.  The universal claims about
`parse_patch_content` are proved over this family. -/

/-- Number of newline characters. -/
def nlCount : Chars → Nat
  | [] => 0
  | c :: rest => (if c = '\n' then 1 else 0) + nlCount rest

/-- The opening fence line ```` ```\n ````. -/
def fenceLine : Chars := ['`', '`', '`', '\n']

/-- The closing fence bracket ```` \n```\n ````. -/
def closeLine : Chars := ['\n', '`', '`', '`', '\n']

/-- One document entry: prose, then a fenced block around the content. -/
def renderEntry (e : Chars × Chars) : Chars := e.1 ++ fenceLine ++ e.2 ++ closeLine

/-- A document made of consecutive entries. -/
def renderDoc (es : List (Chars × Chars)) : Chars := (es.map renderEntry).flatten

/-- Hypotheses on the prose part: no fence run, ends with a newline. -/
def GoodPre (pre : Chars) : Prop := hasTriple pre = false ∧ pre.getLast? = some '\n'

/-- Hypotheses on one entry: good prose and fence-run-free content. -/
def GoodEntry (e : Chars × Chars) : Prop := GoodPre e.1 ∧ hasTriple e.2 = false

/-- The document starts with a non-whitespace, non-backtick character
(rules out the whole-paste unwrap of `parse_patch_content`). -/
def NiceHead (l : Chars) : Prop :=
  ∃ h t, l = h :: t ∧ isPySpace h = false ∧ h ≠ '`'

/-- The `finditer` matches `_find_blocks_with_regex` sees on `renderDoc`. -/
def expectedMarkers : List (Chars × Chars) → Nat → Nat → List FMatch
  | [], _, _ => []
  | (pre, c) :: es, base, nl =>
    ⟨base + pre.length, ['`', '`', '`'], [], nl + nlCount pre + 1, base + pre.length + 4⟩ ::
    ⟨base + pre.length + c.length + 5, ['`', '`', '`'], [],
      nl + nlCount pre + nlCount c + 3, base + pre.length + c.length + 9⟩ ::
    expectedMarkers es (base + pre.length + c.length + 9) (nl + nlCount pre + nlCount c + 3)

/-- The top-level blocks the scanner emits on `renderDoc`. -/
def expectedBlocks : List (Chars × Chars) → Nat → List Block
  | [], _ => []
  | (pre, c) :: es, base =>
    (base + pre.length, base + pre.length + 4, base + pre.length + 4 + c.length, c) ::
    expectedBlocks es (base + pre.length + c.length + 9)

/-- The patches `parse_patch_content` produces on `renderDoc`. -/
def expectedPatches : List (Chars × Chars) → List (Chars × Chars)
  | [] => []
  | (pre, c) :: es =>
    (match (extractPathFromText pre).1 with
     | some p => [(normalizeSlashes p, pyStrip c)]
     | none => []) ++ expectedPatches es

/-- The diagnostics `parse_patch_content` produces on `renderDoc`. -/
def expectedDiags : List (Chars × Chars) → List Diag
  | [] => []
  | (pre, c) :: es =>
    ((extractPathFromText pre).2 ++
      (match (extractPathFromText pre).1 with
       | some _ => []
       | none => [Diag.orphanedBlock (blockPreview c)])) ++ expectedDiags es

/-- One valid candidate-path token, as the Path Resolver records it:
cleaned token that matches the path pattern and does not start with `..`.
Stated independently of `extractPathTokens` so that "last candidate wins"
is a theorem about the implementation, not a restatement of it. -/
def pathCandidate (tok : Chars) : Option Chars :=
  let c := pathToken tok
  if filePathMatch c = true ∧ c.take 2 ≠ ['.', '.'] then some c else none

/-- All candidate paths of a search space, in order of appearance. -/
def pathCandidates (text : Chars) : List Chars := (splitWs text).filterMap pathCandidate

/-- Hypotheses making a path literal a valid, cleanly-written path: it
matches the core path pattern, does not start with `..`, contains no
backslash (so slash normalization is the identity), survives the token
cleaning unchanged (no markdown decoration to strip), is nonempty, and
consists of non-whitespace, non-fence characters (both facts already
implied by the pattern's character classes). -/
def PlainPath (p : Chars) : Prop :=
  patCore p = true ∧ p.take 2 ≠ ['.', '.'] ∧ '\\' ∉ p ∧ pathToken p = p ∧ p ≠ [] ∧
    ∀ a ∈ p, isPySpace a = false ∧ isFence a = false

/-! ### The dump format (`format_file_content` / `parse_dump_file`) -/

/-- The string `"File:"` from the dump header. -/
def fileTag : Chars := ['F', 'i', 'l', 'e', ':']

/-- The pure rendering of one file by `format_file_content` (filesystem.py):
`f"---\nFile: {rel_path}\n---\n" + f"```{lang}\n" + content + "\n```"`
(with `.env` masking not in effect). -/
def renderDumpFile (p lang c : Chars) : Chars :=
  ['-', '-', '-', '\n'] ++ fileTag ++ [' '] ++ p ++ ['\n', '-', '-', '-', '\n'] ++
    ['`', '`', '`'] ++ lang ++ ['\n'] ++ c ++ ['\n', '`', '`', '`']

/-- Plain concatenation of rendered files (the claim's reading). -/
def concatDump (files : List (Chars × Chars × Chars)) : Chars :=
  (files.map (fun f => renderDumpFile f.1 f.2.1 f.2.2)).flatten

/-- The join `dump_repo.py` actually performs: `"\n\n".join(output_parts)`. -/
def joinDump (files : List (Chars × Chars × Chars)) : Chars :=
  List.intercalate ['\n', '\n'] (files.map (fun f => renderDumpFile f.1 f.2.1 f.2.2))

/-- One attempted match of the dump header regex
`^---\s*\nFile:\s*([^\n]+)\s*\n---\s*$` (MULTILINE) at the head of `t`
(the caller checks the `^` line-start condition).  Returns the match
length and the captured group.  The backtracking of the Python engine is
resolved: each `\s*\n` requires the maximal whitespace run to end with a
newline followed directly by the next literal, and the trailing `\s*$`
consumes up to the last newline of the trailing whitespace run (or the
whole run at end of input). -/
def headerAt (t : Chars) : Option (Nat × Chars) :=
  if t.take 3 = ['-', '-', '-'] then
    let r1 := t.drop 3
    let w1 := r1.takeWhile isPySpace
    if w1.getLast? = some '\n' ∧ (r1.drop w1.length).take 5 = fileTag then
      let r2 := r1.drop (w1.length + 5)
      let w2 := r2.takeWhile isPySpace
      let p := (r2.drop w2.length).takeWhile (· ≠ '\n')
      if p = [] then none
      else
        let r3 := r2.drop (w2.length + p.length)
        let w3 := r3.takeWhile isPySpace
        if w3.getLast? = some '\n' ∧ (r3.drop w3.length).take 3 = ['-', '-', '-'] then
          let r4 := r3.drop (w3.length + 3)
          let w4 := r4.takeWhile isPySpace
          let consumed := 3 + w1.length + 5 + w2.length + p.length + w3.length + 3
          if r4.drop w4.length = [] then some (consumed + w4.length, p)
          else
            match (w4.reverse.findIdx? (· = '\n')) with
            | some k => some (consumed + (w4.length - 1 - k), p)
            | none => none
        else none
    else none
  else none

/-- `header_pattern.finditer(content)`: all header matches, with start and
end offsets and the captured path, scanning left to right and resuming
after each match.  `atLS` tracks whether the current position is a line
start (the `^` anchor with `re.MULTILINE`). -/
def findHeadersF : Nat → Chars → Nat → Bool → List (Nat × Nat × Chars)
  | 0, _, _, _ => []
  | _, [], _, _ => []
  | fuel + 1, c :: rest, pos, atLS =>
    match (if atLS then headerAt (c :: rest) else none) with
    | some (len, p) =>
      (pos, pos + len, p) ::
        findHeadersF fuel (rest.drop (len - 1)) (pos + len)
          (((c :: rest).getD (len - 1) ' ') == '\n')
    | none => findHeadersF fuel rest (pos + 1) (c == '\n')

/-- `header_pattern.finditer(content)` from `parse_dump_file`. -/
def findHeaders (l : Chars) : List (Nat × Nat × Chars) := findHeadersF l.length l 0 true

/-- The code-block extraction
`re.search(r'^\s*```[^\n]*\n(.*)\n```\s*$', block, re.DOTALL)` of
`parse_dump_file`, with the greedy `(.*)` resolved as: the largest split
point `j` such that `"\n```"` follows and only whitespace remains after
it. -/
def codeExtract (blk : Chars) : Option Chars :=
  let r := blk.drop (blk.takeWhile isPySpace).length
  if r.take 3 = ['`', '`', '`'] then
    match (r.drop 3).drop ((r.drop 3).takeWhile (· ≠ '\n')).length with
    | '\n' :: body =>
      (List.range (body.length + 1)).reverse.findSome? (fun j =>
        if (body.drop j).take 4 = ['\n', '`', '`', '`'] ∧ (body.drop (j + 4)).all isPySpace then
          some (body.take j)
        else none)
    | _ => none
  else none

/-- The per-header loop of `parse_dump_file`: each file's block runs from
its header's end to the next header's start (or end of input); a file is
emitted only when the code-block regex matches its block. -/
def collectDump (content : Chars) : List (Nat × Nat × Chars) → List (Chars × Chars)
  | [] => []
  | (_, e, p) :: rest =>
    let endBlock :=
      match rest with
      | (s', _, _) :: _ => s'
      | [] => content.length
    (match codeExtract (pySlice content e endBlock) with
     | some body => [(pyStrip p, body)]
     | none => []) ++ collectDump content rest

/-- `parse_dump_file` from `temp_storage.py`, on the file's text. -/
def parseDumpText (content : Chars) : List (Chars × Chars) :=
  collectDump content (findHeaders content)

/-- Substring occurrence test. -/
def hasSub (pat : Chars) : Chars → Bool
  | [] => decide (pat = [])
  | c :: rest => decide ((c :: rest).take pat.length = pat) || hasSub pat rest

/-- Hypotheses on a dump file making the round trip exact: nonempty
newline-free path unchanged by `strip()`, newline-free language tag, and a
content in which the string `"File:"` never occurs (so no spurious dump
header can match inside it; such a content may still contain `---` lines
and fence sequences). -/
def GoodDumpFile (f : Chars × Chars × Chars) : Prop :=
  f.1 ≠ [] ∧ '\n' ∉ f.1 ∧ pyStrip f.1 = f.1 ∧ '\n' ∉ f.2.1 ∧ hasSub fileTag f.2.2 = false

/-- Whether a diagnostic is an unclosed-fence report. -/
def isUnclosedDiag : Diag → Bool
  | .unclosedFence _ => true
  | _ => false

/-- The header spans the dump scanner finds in a `"\n\n"`-joined dump:
file `f`'s header match starts at its render's start and covers the
`---` / `File: path` / `---` lines (14 characters plus the path), the
match ending just before the newline that precedes the code fence. -/
def dumpHeaderPositions (pos : Nat) : List (Chars × Chars × Chars) → List (Nat × Nat × Chars)
  | [] => []
  | f :: rest =>
    (pos, pos + (14 + f.1.length), f.1) ::
      dumpHeaderPositions (pos + ((renderDumpFile f.1 f.2.1 f.2.2).length + 2)) rest

instance (pre : Chars) : Decidable (GoodPre pre) := by
  unfold GoodPre
  infer_instance

instance (e : Chars × Chars) : Decidable (GoodEntry e) := by
  unfold GoodEntry
  infer_instance

instance (p : Chars) : Decidable (PlainPath p) := by
  unfold PlainPath
  infer_instance

instance (f : Chars × Chars × Chars) : Decidable (GoodDumpFile f) := by
  unfold GoodDumpFile
  infer_instance

/-! ## Generic helper lemmas -/

theorem takeWhile_append_all {p : Char → Bool} {l : Chars} (hl : ∀ a ∈ l, p a = true)
    {c : Char} (hc : p c = false) (r : Chars) :
    (l ++ c :: r).takeWhile p = l := by
  induction l with
  | nil => simp [List.takeWhile_cons, hc]
  | cons a t ih =>
    have ha : p a = true := hl a (by simp)
    simp only [List.cons_append, List.takeWhile_cons, ha, if_true]
    rw [ih (fun x hx => hl x (by simp [hx]))]

theorem drop_len_append (l r : Chars) : (l ++ r).drop l.length = r := by
  simp

theorem take_len_append (l r : Chars) : (l ++ r).take l.length = l := by
  simp

theorem getD_len_append (l r : Chars) (i : Nat) (d : Char) :
    (l ++ r).getD (l.length + i) d = r.getD i d := by
  rw [List.getD_append_right]
  · congr 1
    omega
  · omega

theorem pySlice_shift (u v : Chars) (i j : Nat) :
    pySlice (u ++ v) (u.length + i) (u.length + j) = pySlice v i j := by
  unfold pySlice
  rw [List.drop_append_eq_append_drop]
  have h1 : u.length + i - u.length = i := by omega
  have h2 : u.drop (u.length + i) = [] := by
    apply List.drop_eq_nil_of_le
    omega
  rw [h1, h2, List.nil_append]
  congr 1
  omega

theorem pySlice_exact (u c w : Chars) :
    pySlice (u ++ c ++ w) u.length (u.length + c.length) = c := by
  have h := pySlice_shift u (c ++ w) 0 c.length
  rw [List.append_assoc] at *
  rw [Nat.add_zero] at h
  rw [h]
  unfold pySlice
  simp

/-! ## Claims with concrete inputs -/

/-- **C10**: the path-shape pattern accepts `foo/../../evil.txt` (interior
`..` segments), the traversal check does not reject it (only a leading `..`
is rejected), `_extract_path_from_text` returns it, and it appears as the
path of an emitted patch. -/
theorem c10_interior_traversal_accepted :
    filePathMatch "foo/../../evil.txt".toList = true ∧
    "foo/../../evil.txt".toList.take 2 ≠ ['.', '.'] ∧
    extractPathFromText "foo/../../evil.txt".toList =
      (some "foo/../../evil.txt".toList, []) ∧
    parsePatchContent "foo/../../evil.txt\n```\nX\n```".toList =
      ([("foo/../../evil.txt".toList, ['X'])], []) := by
  refine ⟨by decide, by decide, by decide, by decide⟩

/-- **C8 counterexample**: in `"```\nA\n``` foo"` the marker at offset 6
has an empty info string (`' '` follows the run) although its line carries
the trailing non-whitespace text `" foo"` (offsets 9–12); the scanner
accepts it as the closer of the block opened at offset 0 — one closed
block, no unclosed-fence diagnostic — and `parse_patch_content` emits the
patch.  This refutes the claim that any trailing non-whitespace text after
the marker run disqualifies a closer. -/
theorem c8_counterexample :
    findBlocksWithRegex "```\nA\n``` foo".toList = ([(0, 4, 5, ['A'])], []) ∧
    parsePatchContent "x.py\n```\nA\n``` foo".toList = ([("x.py".toList, ['A'])], []) ∧
    pySlice "```\nA\n``` foo".toList 9 13 = [' ', 'f', 'o', 'o'] ∧
    isPySpace 'f' = false := by
  refine ⟨by decide, by decide, by decide, by decide⟩

/-- **C8 amended**: what disqualifies a candidate closer is a nonempty
*info string* — a non-whitespace run immediately adjacent to the marker
run.  A match with a nonempty info string is never accepted as a closer:
the scan step always pushes it as a new opener frame. -/
theorem c8_info_string_never_closes (text : Chars) (st : List Frame × List Block)
    (m : FMatch) (h : m.info ≠ []) :
    scanStep text st m =
      (⟨m.marker, m.info, m.line, m.contentStart, m.start⟩ :: st.1, st.2) := by
  obtain ⟨stack, blocks⟩ := st
  cases stack with
  | nil => rfl
  | cons parent rest =>
    show (if _ ∧ _ ∧ m.info = [] then _ else _) = _
    rw [if_neg]
    rintro ⟨-, -, h3⟩
    exact h h3

theorem c8_info_string_never_closes_witness :
    scanStep [] ([⟨['`', '`', '`'], [], 1, 4, 0⟩], []) ⟨6, ['`', '`', '`'], ['p', 'y'], 2, 12⟩ =
      ([⟨['`', '`', '`'], ['p', 'y'], 2, 12, 6⟩, ⟨['`', '`', '`'], [], 1, 4, 0⟩], []) := by
  exact c8_info_string_never_closes [] ([⟨['`', '`', '`'], [], 1, 4, 0⟩], [])
    ⟨6, ['`', '`', '`'], ['p', 'y'], 2, 12⟩ (by decide)

/-- **C3 counterexample**: the input `"```\nA\n```\nx.py\n```\nB\n```"`
is not one single fenced block — parsed as-is its scanner finds two
sibling top-level blocks and the patch loop yields `[("x.py", "B")]` —
yet `re.fullmatch` succeeds on it, `parse_patch_content` unwraps it and
returns `[]` (an orphaned-block diagnostic), not the as-is result. -/
theorem c3_counterexample :
    parsePatchContent "```\nA\n```\nx.py\n```\nB\n```".toList =
      ([], [Diag.orphanedBlock "x.py".toList]) ∧
    parseBody "```\nA\n```\nx.py\n```\nB\n```".toList =
      ([("x.py".toList, ['B'])], [Diag.orphanedBlock ['A']]) ∧
    outerUnwrap (pyStrip "```\nA\n```\nx.py\n```\nB\n```".toList) =
      some "A\n```\nx.py\n```\nB".toList := by
  refine ⟨by decide, by decide, by decide⟩

theorem outerUnwrap_render (lang mid : Chars) (hl : lang.all isAsciiAlnum = true) :
    outerUnwrap (['`', '`', '`'] ++ lang ++ '\n' :: (mid ++ ['\n', '`', '`', '`'])) =
      some mid := by
  have htw : (lang ++ '\n' :: (mid ++ ['\n', '`', '`', '`'])).takeWhile isAsciiAlnum = lang := by
    apply takeWhile_append_all
    · intro a ha
      exact (List.all_eq_true.mp hl) a ha
    · decide
  unfold outerUnwrap
  rw [if_pos (by simp)]
  have hdrop3 : (['`', '`', '`'] ++ lang ++ '\n' :: (mid ++ ['\n', '`', '`', '`'])).drop 3 =
      lang ++ '\n' :: (mid ++ ['\n', '`', '`', '`']) := by
    simp
  simp only [hdrop3, htw, drop_len_append]
  have hlen : (mid ++ ['\n', '`', '`', '`']).length = mid.length + 4 := by simp
  rw [if_pos]
  · congr 1
    rw [hlen]
    have : mid.length + 4 - 4 = mid.length := by omega
    rw [this, take_len_append]
  · constructor
    · omega
    · rw [hlen]
      have : mid.length + 4 - 4 = mid.length := by omega
      rw [this, drop_len_append]

/-- **C3 amended**: the whole-paste unwrap is purely syntactic: whenever
the stripped input has the shape ```` ``` ```` + alphanumeric info + `\n` +
`mid` + `\n` + ```` ``` ````, `parse_patch_content` parses `mid` as the
effective document — whether or not `mid` forms a single fenced block. -/
theorem c3_syntactic_unwrap (text lang mid : Chars) (hl : lang.all isAsciiAlnum = true)
    (h : pyStrip text = ['`', '`', '`'] ++ lang ++ '\n' :: (mid ++ ['\n', '`', '`', '`'])) :
    parsePatchContent text = parseBody mid := by
  have hne : pyStrip text ≠ [] := by rw [h]; simp
  unfold parsePatchContent
  rw [if_neg hne, h, outerUnwrap_render lang mid hl]

theorem c3_syntactic_unwrap_witness :
    parsePatchContent "```\nA\n```\nx.py\n```\nB\n```".toList =
      parseBody "A\n```\nx.py\n```\nB".toList :=
  c3_syntactic_unwrap _ [] "A\n```\nx.py\n```\nB".toList (by decide) (by decide)

/-- **C7**: the embedding of `parse_patch_content` is a total function:
every input string yields a defined (possibly empty) list of patches and a
list of diagnostics; there is no exceptional outcome. -/
theorem c7_total (text : Chars) :
    ∃ patches diags, parsePatchContent text = (patches, diags) :=
  ⟨(parsePatchContent text).1, (parsePatchContent text).2, rfl⟩

/-- **C9 counterexample**: rendering `[("a.txt","A"), ("b.txt","B")]` with
`format_file_content`'s format and *concatenating* the parts glues the
first file's closing ```` ``` ```` to the second header's `---`, so
`parse_dump_file` finds only the first header and returns a single
garbled pair instead of the two originals. -/
theorem c9_counterexample :
    parseDumpText (concatDump [("a.txt".toList, [], ['A']), ("b.txt".toList, [], ['B'])]) =
      [("a.txt".toList, "A\n```---\nFile: b.txt\n---\n```\nB".toList)] ∧
    parseDumpText (concatDump [("a.txt".toList, [], ['A']), ("b.txt".toList, [], ['B'])]) ≠
      [("a.txt".toList, ['A']), ("b.txt".toList, ['B'])] := by
  refine ⟨by decide, by decide⟩

theorem extractPathTokens_append (l₁ l₂ : List Chars) :
    extractPathTokens (l₁ ++ l₂) =
      ((extractPathTokens l₁).1 ++ (extractPathTokens l₂).1,
       (extractPathTokens l₁).2 ++ (extractPathTokens l₂).2) := by
  induction l₁ with
  | nil => simp [extractPathTokens]
  | cons t rest ih =>
    simp only [List.cons_append, extractPathTokens]
    by_cases h1 : filePathMatch (pathToken t) = true
    · by_cases h2 : (pathToken t).take 2 = ['.', '.']
      · simp [h1, h2, ih]
      · simp [h1, h2, ih]
    · simp [h1, ih]

/-- **C2**: a token whose cleaned form matches the path pattern but starts
with `..` is excluded from the candidate list, contributes a
path-traversal warning, and leaves the scan of all other tokens
unaffected; concretely, when the only path-shaped token before a fence is
`../evil.txt`, the block yields no patch and is reported as orphaned. -/
theorem c2_traversal_excluded :
    (∀ (l₁ l₂ : List Chars) (t : Chars),
        filePathMatch (pathToken t) = true → (pathToken t).take 2 = ['.', '.'] →
        (extractPathTokens (l₁ ++ t :: l₂)).1 = (extractPathTokens (l₁ ++ l₂)).1 ∧
        (extractPathTokens (l₁ ++ t :: l₂)).2 =
          (extractPathTokens l₁).2 ++
            Diag.pathTraversal (pathToken t) :: (extractPathTokens l₂).2) ∧
    parsePatchContent "../evil.txt\n```\nX\n```".toList =
      ([], [Diag.pathTraversal "../evil.txt".toList, Diag.orphanedBlock ['X']]) := by
  constructor
  · intro l₁ l₂ t h1 h2
    have hmid : extractPathTokens (t :: l₂) =
        ((extractPathTokens l₂).1,
          Diag.pathTraversal (pathToken t) :: (extractPathTokens l₂).2) := by
      simp [extractPathTokens, h1, h2]
    constructor
    · rw [extractPathTokens_append l₁ (t :: l₂), extractPathTokens_append l₁ l₂, hmid]
    · rw [extractPathTokens_append l₁ (t :: l₂), hmid]
  · decide

theorem c2_traversal_excluded_witness :
    (extractPathTokens (["a.py".toList] ++ "../evil.txt".toList :: [])).1 =
      (extractPathTokens (["a.py".toList] ++ [])).1 ∧
    (extractPathTokens (["a.py".toList] ++ "../evil.txt".toList :: [])).2 =
      (extractPathTokens ["a.py".toList]).2 ++
        Diag.pathTraversal (pathToken "../evil.txt".toList) :: (extractPathTokens []).2 :=
  c2_traversal_excluded.1 ["a.py".toList] [] "../evil.txt".toList (by decide) (by decide)

/-! ## Scanner lemmas for the structured document family -/

theorem hasTriple_tail (a : Char) (l : Chars) (h : hasTriple (a :: l) = false) :
    hasTriple l = false := by
  match l with
  | [] => rfl
  | [b] => rfl
  | b :: c :: r =>
    rw [hasTriple] at h
    exact (Bool.or_eq_false_iff.mp h).2

theorem tripleAt_drop (l : Chars) (h : hasTriple l = false) (i : Nat) :
    tripleAt (l.drop i) = false := by
  induction l generalizing i with
  | nil => rw [List.drop_nil]; rfl
  | cons a rest ih =>
    cases i with
    | zero =>
      rw [List.drop_zero]
      match rest, h with
      | [], _ => rfl
      | [b], _ => rfl
      | b :: c :: r, h =>
        rw [hasTriple] at h
        have := (Bool.or_eq_false_iff.mp h).1
        rw [tripleAt]
        exact this
    | succ j =>
      rw [List.drop_succ_cons]
      exact ih (hasTriple_tail a rest h) j

theorem tripleAt_append_left (x y : Chars) (hx : 3 ≤ x.length) :
    tripleAt (x ++ y) = tripleAt x := by
  match x, hx with
  | a :: b :: c :: r, _ => rfl

theorem findMarkersF_congr (f₁ : Nat) : ∀ (f₂ : Nat) (l : Chars) (pos nl : Nat),
    l.length ≤ f₁ → l.length ≤ f₂ → findMarkersF f₁ l pos nl = findMarkersF f₂ l pos nl := by
  induction f₁ with
  | zero =>
    intro f₂ l pos nl h1 _
    have : l = [] := List.length_eq_zero.mp (Nat.le_zero.mp h1)
    subst this
    cases f₂ <;> rfl
  | succ f ih =>
    intro f₂ l pos nl h1 h2
    match l with
    | [] => cases f₂ <;> rfl
    | c :: rest =>
      match f₂, h2 with
      | f₂' + 1, h2' =>
        rw [findMarkersF, findMarkersF]
        have hr : rest.length ≤ f := by simpa using h1
        have hr₂ : rest.length ≤ f₂' := by simpa using h2'
        by_cases ht : tripleAt (c :: rest) = true
        · simp only [ht, if_true]
          congr 1
          have hlen : ((rest.drop (rest.takeWhile isFence).length).drop
              ((rest.drop (rest.takeWhile isFence).length).takeWhile
                (fun d => !isPySpace d)).length).length ≤ rest.length := by
            simp only [List.length_drop]
            omega
          exact ih f₂' _ _ _ (Nat.le_trans hlen hr) (Nat.le_trans hlen hr₂)
        · simp only [Bool.not_eq_true] at ht
          simp only [ht, Bool.false_eq_true, if_false]
          exact ih f₂' rest (pos + 1) _ hr hr₂

theorem findMarkers_not_triple {c : Char} {rest : Chars}
    (h : tripleAt (c :: rest) = false) (pos nl : Nat) :
    findMarkers (c :: rest) pos nl =
      findMarkers rest (pos + 1) (nl + if c = '\n' then 1 else 0) := by
  show findMarkersF (c :: rest).length (c :: rest) pos nl = _
  simp only [List.length_cons]
  rw [findMarkersF]
  simp only [h, Bool.false_eq_true, if_false]
  rfl

theorem findMarkers_nil (pos nl : Nat) : findMarkers [] pos nl = [] := rfl

theorem findMarkers_eq_F (f : Nat) (l : Chars) (pos nl : Nat) (h : l.length ≤ f) :
    findMarkersF f l pos nl = findMarkers l pos nl :=
  findMarkersF_congr f l.length l pos nl h (Nat.le_refl _)

theorem takeWhile_append_of_all {p : Char → Bool} {l : Chars}
    (hl : ∀ a ∈ l, p a = true) (r : Chars) :
    (l ++ r).takeWhile p = l ++ r.takeWhile p := by
  induction l with
  | nil => simp
  | cons a t ih =>
    simp [List.takeWhile_cons, hl a (by simp), ih (fun x hx => hl x (by simp [hx]))]

theorem takeWhile_eq_nil_all {p : Char → Bool} {lang : Chars}
    (hl : ∀ a ∈ lang, p a = false) {c : Char} (hc : p c = false) (t : Chars) :
    (lang ++ c :: t).takeWhile p = [] := by
  cases lang with
  | nil => simp [List.takeWhile_cons, hc]
  | cons a l' => simp [List.takeWhile_cons, hl a (by simp)]

theorem tripleAt_false_head {a : Char} (h : isFence a = false) (l : Chars) :
    tripleAt (a :: l) = false := by
  match l with
  | [] => rfl
  | [b] => rfl
  | b :: c :: r => simp [tripleAt, h]

theorem tripleAt_false_second {b : Char} (h : isFence b = false) (a : Char) (l : Chars) :
    tripleAt (a :: b :: l) = false := by
  match l with
  | [] => rfl
  | c :: r => simp [tripleAt, h]

theorem tripleAt_false_third {c : Char} (h : isFence c = false) (a b : Char) (l : Chars) :
    tripleAt (a :: b :: c :: l) = false := by simp [tripleAt, h]

/-- Scanning a ```` ``` ````-style run of `m + 3` backticks whose info
string is `lang` (fence-free, whitespace-free) followed by a newline:
one match is produced and the scan resumes at the newline. -/
theorem findMarkers_run (m : Nat) (lang t : Chars)
    (hlang : ∀ a ∈ lang, isFence a = false ∧ isPySpace a = false) (pos nl : Nat) :
    findMarkers (List.replicate (m + 3) '`' ++ (lang ++ '\n' :: t)) pos nl =
      ⟨pos, List.replicate (m + 3) '`', lang, nl + 1, pos + (m + 3) + lang.length + 1⟩ ::
        findMarkers ('\n' :: t) (pos + (m + 3) + lang.length) nl := by
  have hX : List.replicate (m + 3) '`' ++ (lang ++ '\n' :: t) =
      '`' :: (List.replicate (m + 2) '`' ++ (lang ++ '\n' :: t)) := by
    simp [List.replicate_succ]
  have hR2 : List.replicate (m + 2) '`' ++ (lang ++ '\n' :: t) =
      '`' :: '`' :: (List.replicate m '`' ++ (lang ++ '\n' :: t)) := by
    simp [List.replicate_succ]
  have htw0 : (lang ++ '\n' :: t).takeWhile isFence = [] :=
    takeWhile_eq_nil_all (fun a ha => (hlang a ha).1) (by rfl) t
  have htw : (List.replicate (m + 2) '`' ++ (lang ++ '\n' :: t)).takeWhile isFence =
      List.replicate (m + 2) '`' := by
    rw [takeWhile_append_of_all (fun a ha => by
      rw [List.eq_of_mem_replicate ha]; rfl), htw0, List.append_nil]
  have htrip : tripleAt ('`' :: (List.replicate (m + 2) '`' ++ (lang ++ '\n' :: t))) = true := by
    rw [hR2]
    rfl
  have hnws : ∀ a ∈ lang, (fun d => !isPySpace d) a = true := by
    intro a ha
    simp [(hlang a ha).2]
  have hinfo : (lang ++ '\n' :: t).takeWhile (fun d => !isPySpace d) = lang :=
    takeWhile_append_all hnws (by rfl) t
  have hlen2 : (List.replicate (m + 2) '`').length = m + 2 := by simp
  have hdropM : (List.replicate (m + 2) '`' ++ (lang ++ '\n' :: t)).drop (m + 2) =
      lang ++ '\n' :: t := by
    have := drop_len_append (List.replicate (m + 2) '`') (lang ++ '\n' :: t)
    rwa [hlen2] at this
  have hdropI : (lang ++ '\n' :: t).drop lang.length = '\n' :: t :=
    drop_len_append lang ('\n' :: t)
  have hrep3 : '`' :: List.replicate (m + 2) '`' = List.replicate (m + 3) '`' := by
    simp [List.replicate_succ]
  have hidx : ('\n' :: t).findIdx? (· = '\n') = some 0 := by
    simp [List.findIdx?_cons]
  rw [hX]
  show findMarkersF ((List.replicate (m + 2) '`' ++ (lang ++ '\n' :: t)).length + 1)
      ('`' :: (List.replicate (m + 2) '`' ++ (lang ++ '\n' :: t))) pos nl = _
  rw [findMarkersF]
  rw [if_pos htrip]
  simp only [htw, hlen2, hdropM, hinfo, hdropI, hrep3, hidx]
  rw [findMarkers_eq_F]
  · simp
  · simp
    omega

/-- Scanning a run of `m + 3` backticks at the very end of the text. -/
theorem findMarkers_run_end (m : Nat) (pos nl : Nat) :
    findMarkers (List.replicate (m + 3) '`') pos nl =
      [⟨pos, List.replicate (m + 3) '`', [], nl + 1, pos + (m + 3)⟩] := by
  have hX : List.replicate (m + 3) '`' = '`' :: List.replicate (m + 2) '`' := by
    simp [List.replicate_succ]
  have hR2 : List.replicate (m + 2) '`' = '`' :: '`' :: List.replicate m '`' := by
    simp [List.replicate_succ]
  have htrip : tripleAt ('`' :: List.replicate (m + 2) '`') = true := by
    rw [hR2]
    rfl
  have htw : (List.replicate (m + 2) '`').takeWhile isFence = List.replicate (m + 2) '`' := by
    apply List.takeWhile_eq_self_iff.mpr
    intro a ha
    rw [List.eq_of_mem_replicate ha]
    rfl
  have hlen2 : (List.replicate (m + 2) '`').length = m + 2 := by simp
  have hdropM : (List.replicate (m + 2) '`').drop (m + 2) = [] := by
    apply List.drop_eq_nil_of_le
    simp
  have hFnil : ∀ (f pos nl : Nat), findMarkersF f [] pos nl = [] := by
    intro f pos nl
    cases f <;> rfl
  rw [hX]
  show findMarkersF ((List.replicate (m + 2) '`').length + 1)
      ('`' :: List.replicate (m + 2) '`') pos nl = _
  rw [findMarkersF]
  rw [if_pos htrip]
  simp only [htw, hlen2, hdropM, List.takeWhile_nil, List.drop_nil, List.findIdx?_nil,
    List.length_nil, List.length_cons, hFnil]
  rw [show ('`' :: List.replicate (m + 2) '`') = List.replicate (m + 3) '`' by
    simp [List.replicate_succ]]
  simp

theorem nlCount_cons (a : Char) (l : Chars) :
    nlCount (a :: l) = (if a = '\n' then 1 else 0) + nlCount l := rfl

theorem nlCount_append (l r : Chars) : nlCount (l ++ r) = nlCount l + nlCount r := by
  induction l with
  | nil => simp [nlCount]
  | cons a t ih =>
    simp only [List.cons_append, nlCount_cons, ih]
    omega

/-- Skipping a segment that ends with a newline and contains no fence run:
no matches are produced inside it. -/
theorem findMarkers_skip_nl_last (s : Chars) (hs : hasTriple s = false)
    (hlast : s.getLast? = some '\n') :
    ∀ (t : Chars) (pos nl : Nat),
      findMarkers (s ++ t) pos nl = findMarkers t (pos + s.length) (nl + nlCount s) := by
  induction s with
  | nil => simp at hlast
  | cons a s' ih =>
    intro t pos nl
    have hnotrip : tripleAt (a :: (s' ++ t)) = false := by
      match s', hlast, hs with
      | [], hlast, _ =>
        have : a = '\n' := by simpa using hlast
        subst this
        exact tripleAt_false_head (by rfl) _
      | [b], hlast, _ =>
        have : b = '\n' := by simpa [List.getLast?] using hlast
        subst this
        exact tripleAt_false_second (by rfl) a _
      | b :: c :: s'', _, hs =>
        show tripleAt (a :: b :: c :: (s'' ++ t)) = false
        rw [tripleAt]
        rw [hasTriple] at hs
        exact (Bool.or_eq_false_iff.mp hs).1
    rw [List.cons_append, findMarkers_not_triple hnotrip]
    cases s' with
    | nil =>
      have ha : a = '\n' := by simpa using hlast
      subst ha
      simp [nlCount]
    | cons b s'' =>
      rw [ih (hasTriple_tail a _ hs) (by simpa [List.getLast?_cons_cons] using hlast) t]
      congr 1
      · simp
        omega
      · simp only [nlCount_cons]
        omega

/-- Skipping a fence-run-free segment whose continuation starts with a
newline: no matches are produced inside it. -/
theorem findMarkers_skip_before_nl (s : Chars) (hs : hasTriple s = false) :
    ∀ (t : Chars) (pos nl : Nat),
      findMarkers (s ++ '\n' :: t) pos nl =
        findMarkers ('\n' :: t) (pos + s.length) (nl + nlCount s) := by
  induction s with
  | nil => simp [nlCount]
  | cons a s' ih =>
    intro t pos nl
    have hnotrip : tripleAt (a :: (s' ++ '\n' :: t)) = false := by
      match s', hs with
      | [], _ => exact tripleAt_false_second (by rfl) a t
      | [b], _ => exact tripleAt_false_third (by rfl) a b t
      | b :: c :: s'', hs =>
        show tripleAt (a :: b :: c :: (s'' ++ '\n' :: t)) = false
        rw [tripleAt]
        rw [hasTriple] at hs
        exact (Bool.or_eq_false_iff.mp hs).1
    rw [List.cons_append, findMarkers_not_triple hnotrip]
    rw [ih (hasTriple_tail a _ hs) t]
    congr 1
    · simp
      omega
    · simp only [nlCount_cons]
      omega

theorem hasTriple_cons_of {a : Char} {l : Chars} (ha : isFence a = false)
    (hl : hasTriple l = false) : hasTriple (a :: l) = false := by
  match l with
  | [] => rfl
  | [b] => rfl
  | b :: c :: r =>
    rw [hasTriple]
    simp [ha, hl]

/-- Scanning the literal fence line ```` ```\n ````. -/
theorem findMarkers_fence (t : Chars) (pos nl : Nat) :
    findMarkers (fenceLine ++ t) pos nl =
      ⟨pos, ['`', '`', '`'], [], nl + 1, pos + 4⟩ :: findMarkers ('\n' :: t) (pos + 3) nl := by
  have h := findMarkers_run 0 [] t (by simp) pos nl
  simp only [List.nil_append, List.length_nil] at h
  have hrep : List.replicate (0 + 3) '`' = ['`', '`', '`'] := by decide
  rw [hrep] at h
  have hfl : fenceLine ++ t = ['`', '`', '`'] ++ '\n' :: t := by simp [fenceLine]
  rw [hfl, h]

theorem renderDoc_nil : renderDoc [] = [] := rfl

theorem renderDoc_cons (e : Chars × Chars) (es : List (Chars × Chars)) :
    renderDoc (e :: es) = renderEntry e ++ renderDoc es := by
  simp [renderDoc]

theorem renderEntry_length (pre c : Chars) :
    (renderEntry (pre, c)).length = pre.length + c.length + 9 := by
  simp [renderEntry, fenceLine, closeLine]
  omega

theorem renderEntry_nlCount (pre c : Chars) :
    nlCount (renderEntry (pre, c)) = nlCount pre + nlCount c + 3 := by
  have h1 : nlCount fenceLine = 1 := rfl
  have h2 : nlCount closeLine = 2 := rfl
  simp [renderEntry, nlCount_append, h1, h2]
  omega

/-- The scanner's match list on a rendered document followed by any tail. -/
theorem findMarkers_renderDoc (es : List (Chars × Chars)) :
    ∀ (t : Chars) (pos nl : Nat), (∀ e ∈ es, GoodEntry e) →
      findMarkers (renderDoc es ++ t) pos nl =
        expectedMarkers es pos nl ++
          findMarkers t (pos + (renderDoc es).length) (nl + nlCount (renderDoc es)) := by
  induction es with
  | nil =>
    intro t pos nl _
    simp [renderDoc, expectedMarkers, nlCount]
  | cons e es ih =>
    obtain ⟨pre, c⟩ := e
    intro t pos nl hgood
    obtain ⟨⟨hpre3, hpreNl⟩, hc3⟩ := hgood (pre, c) (by simp)
    have hshape : renderDoc ((pre, c) :: es) ++ t =
        pre ++ (fenceLine ++ (c ++ (closeLine ++ (renderDoc es ++ t)))) := by
      simp [renderDoc_cons, renderEntry]
    rw [hshape, findMarkers_skip_nl_last pre hpre3 hpreNl, findMarkers_fence]
    have hre2 : ('\n' : Char) :: (c ++ (closeLine ++ (renderDoc es ++ t))) =
        ('\n' :: c) ++ '\n' :: (fenceLine ++ (renderDoc es ++ t)) := by
      simp [closeLine, fenceLine]
    rw [hre2, findMarkers_skip_before_nl ('\n' :: c) (hasTriple_cons_of rfl hc3)]
    rw [findMarkers_not_triple (@tripleAt_false_head '\n' rfl _), findMarkers_fence]
    rw [findMarkers_not_triple (@tripleAt_false_head '\n' rfl _)]
    rw [ih t _ _ (fun x hx => hgood x (by simp [hx]))]
    simp only [expectedMarkers, List.cons_append, nlCount_cons, List.length_cons]
    have hL : (renderDoc ((pre, c) :: es)).length =
        pre.length + c.length + 9 + (renderDoc es).length := by
      rw [renderDoc_cons, List.length_append, renderEntry_length]
    have hN : nlCount (renderDoc ((pre, c) :: es)) =
        nlCount pre + nlCount c + 3 + nlCount (renderDoc es) := by
      rw [renderDoc_cons, nlCount_append, renderEntry_nlCount]
    rw [hL, hN]
    simp only [if_true]
    ring_nf

/-- Equation lemma for `scanStep` on a nonempty stack. -/
theorem scanStep_cons_eq (text : Chars) (parent : Frame) (rest : List Frame)
    (blocks : List Block) (m : FMatch) :
    scanStep text (parent :: rest, blocks) m =
      if m.marker.head? = parent.marker.head? ∧ parent.marker.length ≤ m.marker.length ∧
          m.info = [] then
        match rest with
        | [] =>
          ([], blocks ++ [(parent.openStart, parent.contentStart,
            if 0 < m.start ∧ text.getD (m.start - 1) ' ' = '\n' then m.start - 1 else m.start,
            pySlice text parent.contentStart
              (if 0 < m.start ∧ text.getD (m.start - 1) ' ' = '\n' then m.start - 1
               else m.start))])
        | _ => (rest, blocks)
      else (⟨m.marker, m.info, m.line, m.contentStart, m.start⟩ :: parent :: rest, blocks) := by
  rfl

/-- Processing the expected match list of a rendered document leaves the
stack empty and appends exactly the expected top-level blocks. -/
theorem foldl_scanStep_renderDoc (es : List (Chars × Chars)) :
    ∀ (text u w : Chars) (nl : Nat) (accB : List Block),
      (∀ e ∈ es, GoodEntry e) →
      text = u ++ (renderDoc es ++ w) →
      (expectedMarkers es u.length nl).foldl (scanStep text) ([], accB) =
        ([], accB ++ expectedBlocks es u.length) := by
  induction es with
  | nil =>
    intro text u w nl accB _ _
    simp [expectedMarkers, expectedBlocks]
  | cons e es ih =>
    obtain ⟨pre, c⟩ := e
    intro text u w nl accB hgood htext
    have hparts : text = (u ++ pre ++ fenceLine ++ c) ++ (closeLine ++ (renderDoc es ++ w)) := by
      rw [htext, renderDoc_cons]
      simp [renderEntry, List.append_assoc]
    have hplen : (u ++ pre ++ fenceLine ++ c).length =
        u.length + pre.length + 4 + c.length := by
      simp [fenceLine]
      omega
    have hget : text.getD (u.length + pre.length + c.length + 5 - 1) ' ' = '\n' := by
      rw [hparts]
      have hidx : u.length + pre.length + c.length + 5 - 1 =
          (u ++ pre ++ fenceLine ++ c).length + 0 := by
        rw [hplen]
        omega
      rw [hidx, getD_len_append]
      rfl
    have hslice : pySlice text (u.length + pre.length + 4)
        (u.length + pre.length + c.length + 5 - 1) = c := by
      have hparts2 : text =
          (u ++ pre ++ fenceLine) ++ c ++ (closeLine ++ (renderDoc es ++ w)) := by
        rw [hparts]
      have hlen3 : (u ++ pre ++ fenceLine).length = u.length + pre.length + 4 := by
        simp [fenceLine]
        omega
      have h := pySlice_exact (u ++ pre ++ fenceLine) c (closeLine ++ (renderDoc es ++ w))
      rw [hlen3] at h
      have hidx2 : u.length + pre.length + c.length + 5 - 1 =
          u.length + pre.length + 4 + c.length := by omega
      rw [hparts2, hidx2, h]
    simp only [expectedMarkers, List.foldl_cons]
    have h1 : scanStep text ([], accB)
        ⟨u.length + pre.length, ['`', '`', '`'], [], nl + nlCount pre + 1,
          u.length + pre.length + 4⟩ =
        ([⟨['`', '`', '`'], [], nl + nlCount pre + 1, u.length + pre.length + 4,
           u.length + pre.length⟩], accB) := rfl
    rw [h1]
    have h2 : scanStep text
        ([⟨['`', '`', '`'], [], nl + nlCount pre + 1, u.length + pre.length + 4,
           u.length + pre.length⟩], accB)
        ⟨u.length + pre.length + c.length + 5, ['`', '`', '`'], [],
          nl + nlCount pre + nlCount c + 3, u.length + pre.length + c.length + 9⟩ =
        ([], accB ++ [(u.length + pre.length, u.length + pre.length + 4,
            u.length + pre.length + c.length + 4, c)]) := by
      rw [scanStep_cons_eq]
      rw [if_pos ⟨rfl, by simp, rfl⟩]
      dsimp only
      rw [if_pos ⟨by omega, hget⟩]
      rw [hslice]
      have he : u.length + pre.length + c.length + 5 - 1 =
          u.length + pre.length + c.length + 4 := by omega
      rw [he]
    rw [h2]
    have htext' : text = (u ++ renderEntry (pre, c)) ++ (renderDoc es ++ w) := by
      rw [htext, renderDoc_cons]
      simp [List.append_assoc]
    have hihr := ih text (u ++ renderEntry (pre, c)) w
      (nl + nlCount pre + nlCount c + 3) (accB ++ [(u.length + pre.length,
        u.length + pre.length + 4, u.length + pre.length + c.length + 4, c)])
      (fun x hx => hgood x (by simp [hx])) htext'
    have hb : (u ++ renderEntry (pre, c)).length = u.length + pre.length + c.length + 9 := by
      rw [List.length_append, renderEntry_length]
      omega
    rw [hb] at hihr
    rw [hihr]
    simp only [expectedBlocks, List.append_assoc, List.singleton_append]
    ring_nf

theorem expectedBlocks_key_ge (es : List (Chars × Chars)) :
    ∀ (base : Nat) (b : Block), b ∈ expectedBlocks es base → base ≤ b.1 := by
  induction es with
  | nil => intro base b hb; simp [expectedBlocks] at hb
  | cons e es ih =>
    obtain ⟨pre, c⟩ := e
    intro base b hb
    simp only [expectedBlocks, List.mem_cons] at hb
    rcases hb with hb | hb
    · subst hb; simp
    · have := ih _ b hb
      omega

theorem expectedBlocks_pairwise (es : List (Chars × Chars)) (base : Nat) :
    List.Pairwise (fun b b' : Block => b.1 < b'.1) (expectedBlocks es base) := by
  induction es generalizing base with
  | nil => simp [expectedBlocks]
  | cons e es ih =>
    obtain ⟨pre, c⟩ := e
    simp only [expectedBlocks]
    refine List.Pairwise.cons ?_ (ih _)
    intro b hb
    have := expectedBlocks_key_ge es _ b hb
    simp
    omega

theorem sortBlocks_sorted_id (l : List Block)
    (h : List.Pairwise (fun b b' : Block => b.1 < b'.1) l) : sortBlocks l = l := by
  induction l with
  | nil => rfl
  | cons x xs ih =>
    have hx : sortBlocks (x :: xs) = insertBlock x (sortBlocks xs) := rfl
    rw [hx, ih h.tail]
    cases xs with
    | nil => rfl
    | cons y ys =>
      show (if x.1 ≤ y.1 then x :: y :: ys else y :: insertBlock x ys) = x :: y :: ys
      rw [if_pos (Nat.le_of_lt (List.rel_of_pairwise_cons h (by simp)))]

/-- `_find_blocks_with_regex` on a rendered document: exactly the expected
blocks, no unclosed-fence warnings. -/
theorem findBlocks_renderDoc (es : List (Chars × Chars)) (hgood : ∀ e ∈ es, GoodEntry e) :
    findBlocksWithRegex (renderDoc es) = (expectedBlocks es 0, []) := by
  unfold findBlocksWithRegex
  have hm : findMarkers (renderDoc es) 0 0 = expectedMarkers es 0 0 := by
    have h := findMarkers_renderDoc es [] 0 0 hgood
    simpa [findMarkers_nil] using h
  rw [hm]
  have hf := foldl_scanStep_renderDoc es (renderDoc es) [] [] 0 [] hgood (by simp)
  simp only [List.length_nil] at hf
  rw [hf]
  simp [sortBlocks_sorted_id _ (expectedBlocks_pairwise es 0)]

theorem splitWs_cons_ws {c : Char} (h : isPySpace c = true) (x : Chars) :
    splitWs (c :: x) = splitWs x := by
  show splitWsF (x.length + 1) (c :: x) = splitWs x
  rw [splitWsF, if_pos h]
  rfl

theorem extractPathFromText_cons_nl (x : Chars) :
    extractPathFromText ('\n' :: x) = extractPathFromText x := by
  unfold extractPathFromText
  rw [@splitWs_cons_ws '\n' rfl x]

theorem pySlice_zero_take (v : Chars) (n : Nat) : pySlice v 0 n = v.take n := by
  simp [pySlice]

theorem pySlice_from_len (u v : Chars) (j : Nat) :
    pySlice (u ++ v) u.length (u.length + j) = v.take j := by
  have h := pySlice_shift u v 0 j
  rw [Nat.add_zero] at h
  rw [h, pySlice_zero_take]

theorem pySlice_pred (u v : Chars) (lastEnd j : Nat) (h : lastEnd + 1 = u.length) :
    pySlice (u ++ v) lastEnd (u.length + j) = u.getD lastEnd ' ' :: v.take j := by
  unfold pySlice
  rw [List.drop_append_eq_append_drop]
  have h3 : lastEnd - u.length = 0 := by omega
  rw [h3, List.drop_zero]
  have hlt : lastEnd < u.length := by omega
  have h4 : u.drop lastEnd = [u.getD lastEnd ' '] := by
    rw [List.drop_eq_getElem_cons hlt]
    have : u.drop (lastEnd + 1) = [] := List.drop_eq_nil_of_le (by omega)
    rw [this, List.getD_eq_getElem u ' ' hlt]
  rw [h4]
  have h5 : u.length + j - lastEnd = j + 1 := by omega
  rw [h5]
  rfl

/-- The patch loop of `parse_patch_content` over the expected blocks of a
rendered document: per entry, one patch (when the prose resolves to a
path) or one orphaned-block diagnostic. -/
theorem foldl_loopStep_renderDoc (es : List (Chars × Chars)) :
    ∀ (text u w : Chars) (accP : List (Chars × Chars)) (accD : List Diag) (lastEnd : Nat),
      (∀ e ∈ es, GoodEntry e) →
      text = u ++ (renderDoc es ++ w) →
      (lastEnd = u.length ∨ (lastEnd + 1 = u.length ∧ u.getD lastEnd ' ' = '\n')) →
      ((expectedBlocks es u.length).foldl (loopStep text) (accP, accD, lastEnd)).1 =
          accP ++ expectedPatches es ∧
        ((expectedBlocks es u.length).foldl (loopStep text) (accP, accD, lastEnd)).2.1 =
          accD ++ expectedDiags es := by
  induction es with
  | nil =>
    intro text u w accP accD lastEnd _ _ _
    simp [expectedBlocks, expectedPatches, expectedDiags]
  | cons e es ih =>
    obtain ⟨pre, c⟩ := e
    intro text u w accP accD lastEnd hgood htext hlast
    have hsearch : extractPathFromText (pySlice text lastEnd (u.length + pre.length)) =
        extractPathFromText pre := by
      rcases hlast with h | ⟨h1, h2⟩
      · subst h
        rw [htext]
        have hv : renderDoc ((pre, c) :: es) ++ w =
            pre ++ (fenceLine ++ (c ++ (closeLine ++ (renderDoc es ++ w)))) := by
          rw [renderDoc_cons]
          simp [renderEntry, List.append_assoc]
        rw [hv, pySlice_from_len]
        rw [take_len_append]
      · rw [htext, pySlice_pred u _ lastEnd pre.length h1]
        have hg : (u ++ (renderDoc ((pre, c) :: es) ++ w)).getD lastEnd ' ' =
            u.getD lastEnd ' ' := by
          rw [List.getD_append]
          omega
        rw [← hg, ← htext] at h2
        rw [show (u.getD lastEnd ' ') = '\n' from by
          rw [← h2, htext, List.getD_append]
          omega]
        have hv : renderDoc ((pre, c) :: es) ++ w =
            pre ++ (fenceLine ++ (c ++ (closeLine ++ (renderDoc es ++ w)))) := by
          rw [renderDoc_cons]
          simp [renderEntry, List.append_assoc]
        rw [hv, take_len_append, extractPathFromText_cons_nl]
    have hdropB : text.drop (u.length + pre.length + 4 + c.length) =
        closeLine ++ (renderDoc es ++ w) := by
      have hparts : text = (u ++ pre ++ fenceLine ++ c) ++ (closeLine ++ (renderDoc es ++ w)) := by
        rw [htext, renderDoc_cons]
        simp [renderEntry, List.append_assoc]
      have hplen : (u ++ pre ++ fenceLine ++ c).length =
          u.length + pre.length + 4 + c.length := by
        simp [fenceLine]
        omega
      rw [hparts, ← hplen, drop_len_append]
    have hsfe : searchFenceEnd (closeLine ++ (renderDoc es ++ w)) = some 4 := by
      have hinner : searchFenceEnd ('`' :: '`' :: '`' :: '\n' :: (renderDoc es ++ w)) =
          some 3 := by
        have htr : tripleAt ('`' :: '`' :: '`' :: '\n' :: (renderDoc es ++ w)) = true := rfl
        rw [searchFenceEnd, if_pos htr]
        simp [List.takeWhile_cons, isFence]
      have hn := @tripleAt_false_head '\n' rfl ('`' :: '`' :: '`' :: '\n' :: (renderDoc es ++ w))
      show searchFenceEnd ('\n' :: ('`' :: '`' :: '`' :: '\n' :: (renderDoc es ++ w))) = some 4
      rw [searchFenceEnd, if_neg (by simp [hn]), hinner]
      rfl
    simp only [expectedBlocks, List.foldl_cons]
    have hstep : loopStep text (accP, accD, lastEnd)
        (u.length + pre.length, u.length + pre.length + 4,
          u.length + pre.length + 4 + c.length, c) =
        ((match (extractPathFromText pre).1 with
          | some p => accP ++ [(normalizeSlashes p, pyStrip c)]
          | none => accP),
         (match (extractPathFromText pre).1 with
          | some _ => accD ++ (extractPathFromText pre).2
          | none => accD ++ (extractPathFromText pre).2 ++
              [Diag.orphanedBlock (blockPreview c)]),
         u.length + pre.length + 4 + c.length + 4) := by
      show (match (extractPathFromText (pySlice text lastEnd (u.length + pre.length))).1 with
        | some p => (accP ++ [(normalizeSlashes p, pyStrip c)],
            accD ++ (extractPathFromText (pySlice text lastEnd (u.length + pre.length))).2,
            match searchFenceEnd (text.drop (u.length + pre.length + 4 + c.length)) with
            | some e => u.length + pre.length + 4 + c.length + e
            | none => u.length + pre.length + 4 + c.length)
        | none => (accP,
            accD ++ (extractPathFromText (pySlice text lastEnd (u.length + pre.length))).2 ++
              [Diag.orphanedBlock (blockPreview c)],
            match searchFenceEnd (text.drop (u.length + pre.length + 4 + c.length)) with
            | some e => u.length + pre.length + 4 + c.length + e
            | none => u.length + pre.length + 4 + c.length)) = _
      rw [hsearch, hdropB, hsfe]
      cases (extractPathFromText pre).1 <;> rfl
    rw [hstep]
    have htext' : text = (u ++ renderEntry (pre, c)) ++ (renderDoc es ++ w) := by
      rw [htext, renderDoc_cons]
      simp [List.append_assoc]
    have hule : (u ++ renderEntry (pre, c)).length = u.length + pre.length + c.length + 9 := by
      rw [List.length_append, renderEntry_length]
      omega
    have hgetnl : (u ++ renderEntry (pre, c)).getD (u.length + pre.length + 4 + c.length + 4)
        ' ' = '\n' := by
      have hsh : u ++ renderEntry (pre, c) =
          (u ++ pre ++ fenceLine ++ c ++ ['\n', '`', '`', '`']) ++ ['\n'] := by
        simp [renderEntry, fenceLine, closeLine]
      have hl : (u ++ pre ++ fenceLine ++ c ++ ['\n', '`', '`', '`']).length =
          u.length + pre.length + 4 + c.length + 4 := by
        simp [fenceLine]
        omega
      rw [hsh, ← hl]
      have := getD_len_append (u ++ pre ++ fenceLine ++ c ++ ['\n', '`', '`', '`']) ['\n'] 0 ' '
      rw [Nat.add_zero] at this
      rw [this]
      rfl
    have hih := ih text (u ++ renderEntry (pre, c)) w
      (match (extractPathFromText pre).1 with
        | some p => accP ++ [(normalizeSlashes p, pyStrip c)]
        | none => accP)
      (match (extractPathFromText pre).1 with
        | some _ => accD ++ (extractPathFromText pre).2
        | none => accD ++ (extractPathFromText pre).2 ++ [Diag.orphanedBlock (blockPreview c)])
      (u.length + pre.length + 4 + c.length + 4)
      (fun x hx => hgood x (by simp [hx])) htext'
      (Or.inr ⟨by rw [hule]; omega, by
        rw [show u.length + pre.length + 4 + c.length + 4 =
          u.length + pre.length + 4 + c.length + 4 from rfl]
        exact hgetnl⟩)
    rw [hule] at hih
    have harith : u.length + pre.length + c.length + 9 =
        u.length + (pre.length + (c.length + (1 + 1 + 1 + 1 + 1 + 1 + 1 + 1 + 1))) := by
      omega
    constructor
    · rw [show expectedPatches ((pre, c) :: es) =
        (match (extractPathFromText pre).1 with
         | some p => [(normalizeSlashes p, pyStrip c)]
         | none => []) ++ expectedPatches es from rfl]
      rcases hopt : (extractPathFromText pre).1 with _ | p
      · simp only [hopt] at hih ⊢
        rw [hih.1]
        simp
      · simp only [hopt] at hih ⊢
        rw [hih.1]
        simp
    · rw [show expectedDiags ((pre, c) :: es) =
        ((extractPathFromText pre).2 ++
          (match (extractPathFromText pre).1 with
           | some _ => []
           | none => [Diag.orphanedBlock (blockPreview c)])) ++ expectedDiags es from rfl]
      rcases hopt : (extractPathFromText pre).1 with _ | p
      · simp only [hopt] at hih ⊢
        rw [hih.2]
        simp
      · simp only [hopt] at hih ⊢
        rw [hih.2]
        simp

theorem findMarkers_nil_of_noTriple (l : Chars) (h : hasTriple l = false) (pos nl : Nat) :
    findMarkers l pos nl = [] := by
  induction l generalizing pos nl with
  | nil => rfl
  | cons c rest ih =>
    rw [findMarkers_not_triple (tripleAt_drop (c :: rest) h 0)]
    exact ih (hasTriple_tail c rest h) _ _

theorem dropWhile_append_singleton {p : Char → Bool} {h : Char} (hh : p h = false)
    (l : Chars) : (l ++ [h]).dropWhile p = l.dropWhile p ++ [h] := by
  induction l with
  | nil => simp [List.dropWhile_cons, hh]
  | cons a t ih =>
    by_cases ha : p a = true
    · simp [List.dropWhile_cons, ha, ih]
    · simp only [Bool.not_eq_true] at ha
      simp [List.dropWhile_cons, ha]

theorem pyStrip_cons {h : Char} (hh : isPySpace h = false) (t : Chars) :
    pyStrip (h :: t) = h :: dropTrailingWs t := by
  unfold pyStrip
  rw [List.dropWhile_cons, if_neg (by simp [hh])]
  unfold dropTrailingWs
  rw [List.reverse_cons, dropWhile_append_singleton hh]
  simp

theorem outerUnwrap_none_of_head {h : Char} (hh : h ≠ '`') (r : Chars) :
    outerUnwrap (h :: r) = none := by
  unfold outerUnwrap
  rw [if_neg]
  intro hcontra
  rw [List.take_succ_cons] at hcontra
  exact hh (List.head_eq_of_cons_eq hcontra)

/-- `parseBody` on a rendered document: the expected patches and
diagnostics. -/
theorem parseBody_renderDoc (es : List (Chars × Chars))
    (hgood : ∀ e ∈ es, GoodEntry e) :
    parseBody (renderDoc es) = (expectedPatches es, expectedDiags es) := by
  unfold parseBody
  rw [findBlocks_renderDoc es hgood]
  match es, hgood with
  | [], _ => rfl
  | (pre, c) :: es', hgood =>
    have hloop := foldl_loopStep_renderDoc ((pre, c) :: es') (renderDoc ((pre, c) :: es'))
      [] [] [] [] 0 hgood (by simp) (Or.inl rfl)
    simp only [List.length_nil] at hloop
    show (_, _) = _
    rw [show expectedBlocks ((pre, c) :: es') 0 =
      (0 + pre.length, 0 + pre.length + 4, 0 + pre.length + 4 + c.length, c) ::
        expectedBlocks es' (0 + pre.length + c.length + 9) from rfl] at hloop ⊢
    rw [hloop.1, hloop.2]
    simp

/-- **Master theorem**: `parse_patch_content` on a rendered document whose
first character is not whitespace and not a backtick. -/
theorem parsePatchContent_renderDoc (es : List (Chars × Chars))
    (hgood : ∀ e ∈ es, GoodEntry e) (hnice : NiceHead (renderDoc es)) :
    parsePatchContent (renderDoc es) = (expectedPatches es, expectedDiags es) := by
  obtain ⟨h, t, hd, hws, hbt⟩ := hnice
  unfold parsePatchContent
  rw [hd, pyStrip_cons hws, if_neg (by simp), outerUnwrap_none_of_head hbt, ← hd]
  exact parseBody_renderDoc es hgood

theorem splitWsF_nil (f : Nat) : splitWsF f [] = [] := by
  cases f <;> rfl

theorem splitWs_token_nl (p : Chars) (hne : p ≠ [])
    (hws : ∀ a ∈ p, isPySpace a = false) : splitWs (p ++ ['\n']) = [p] := by
  match p, hne with
  | h :: t, _ =>
    show splitWsF ((h :: t ++ ['\n']).length) (h :: t ++ ['\n']) = [h :: t]
    have hlen : (h :: t ++ ['\n']).length = t.length + 1 + 1 := by simp
    rw [hlen, List.cons_append]
    rw [splitWsF]
    rw [if_neg (by simp [hws h (by simp)])]
    have htw : (t ++ ['\n']).takeWhile (fun d => !isPySpace d) = t :=
      takeWhile_append_all (fun a ha => by simp [hws a (by simp [ha])]) (by rfl) []
    rw [htw]
    have hdr : (t ++ ['\n']).drop t.length = ['\n'] := drop_len_append t ['\n']
    rw [hdr]
    rw [show splitWsF (t.length + 1) ['\n'] = splitWsF t.length [] from rfl, splitWsF_nil]

theorem normalizeSlashes_id (p : Chars) (h : '\\' ∉ p) : normalizeSlashes p = p := by
  unfold normalizeSlashes
  induction p with
  | nil => rfl
  | cons a t ih =>
    have ha : a ≠ '\\' := fun e => h (by simp [e])
    simp only [List.map_cons, if_neg ha]
    rw [ih (fun hm => h (by simp [hm]))]

theorem hasTriple_eq_false_of_nonfence (l : Chars) (h : ∀ a ∈ l, isFence a = false) :
    hasTriple l = false := by
  induction l with
  | nil => rfl
  | cons a t ih =>
    match t with
    | [] => rfl
    | [b] => rfl
    | b :: c :: r =>
      rw [hasTriple]
      simp [h a (by simp), ih (fun x hx => h x (by simp [hx]))]

/-- A plainly-written path token before a fence resolves to itself, with
no diagnostics. -/
theorem extractPath_plain (p : Chars) (hp : PlainPath p) :
    extractPathFromText (p ++ ['\n']) = (some p, []) := by
  obtain ⟨hcore, hdd, _, htok, hne, hchars⟩ := hp
  have hfm : filePathMatch p = true := by
    unfold filePathMatch
    simp [hcore]
  unfold extractPathFromText
  rw [splitWs_token_nl p hne (fun a ha => (hchars a ha).1)]
  simp [extractPathTokens, htok, hfm, hdd]

theorem goodEntry_plain (p c : Chars) (hp : PlainPath p) (hc : hasTriple c = false) :
    GoodEntry (p ++ ['\n'], c) := by
  obtain ⟨_, _, _, _, hne, hchars⟩ := hp
  refine ⟨⟨?_, by simp⟩, hc⟩
  apply hasTriple_eq_false_of_nonfence
  intro a ha
  rcases List.mem_append.mp ha with ha | ha
  · exact (hchars a ha).2
  · simp at ha
    subst ha
    rfl

theorem expectedPatches_mapped (pairs : List (Chars × Chars))
    (hpath : ∀ e ∈ pairs, PlainPath e.1) :
    expectedPatches (pairs.map (fun e => (e.1 ++ ['\n'], e.2))) =
      pairs.map (fun e => (e.1, pyStrip e.2)) := by
  induction pairs with
  | nil => rfl
  | cons e pairs ih =>
    obtain ⟨p, c⟩ := e
    have hp := hpath (p, c) (by simp)
    simp only [List.map_cons, expectedPatches, extractPath_plain p hp]
    rw [normalizeSlashes_id p hp.2.2.1]
    rw [ih (fun x hx => hpath x (by simp [hx]))]
    rfl

theorem expectedDiags_mapped (pairs : List (Chars × Chars))
    (hpath : ∀ e ∈ pairs, PlainPath e.1) :
    expectedDiags (pairs.map (fun e => (e.1 ++ ['\n'], e.2))) = [] := by
  induction pairs with
  | nil => rfl
  | cons e pairs ih =>
    obtain ⟨p, c⟩ := e
    have hp := hpath (p, c) (by simp)
    simp only [List.map_cons, expectedDiags, extractPath_plain p hp]
    rw [ih (fun x hx => hpath x (by simp [hx]))]
    rfl

/-- **C1**: a well-formed document of `N` balanced, non-nested fenced
blocks, each preceded by a unique plainly-written valid path, parses to
exactly the `N` `(path, trimmed content)` pairs in document order, with no
diagnostics. -/
theorem c1_wellformed_document (pairs : List (Chars × Chars))
    (hpath : ∀ e ∈ pairs, PlainPath e.1)
    (hcont : ∀ e ∈ pairs, hasTriple e.2 = false)
    (hnodup : (pairs.map Prod.fst).Nodup) :
    parsePatchContent (renderDoc (pairs.map (fun e => (e.1 ++ ['\n'], e.2)))) =
      (pairs.map (fun e => (e.1, pyStrip e.2)), []) := by
  have hgood : ∀ e ∈ pairs.map (fun e => (e.1 ++ ['\n'], e.2)), GoodEntry e := by
    intro e he
    obtain ⟨x, hx, rfl⟩ := List.mem_map.mp he
    exact goodEntry_plain x.1 x.2 (hpath x hx) (hcont x hx)
  cases pairs with
  | nil => rfl
  | cons e pairs' =>
    obtain ⟨p, c⟩ := e
    have hp := hpath (p, c) (by simp)
    obtain ⟨hne⟩ := hp.2.2.2.2
    have hnice : NiceHead (renderDoc (((p, c) :: pairs').map (fun e => (e.1 ++ ['\n'], e.2)))) := by
      match p, hp.2.2.2.2.1 with
      | h :: t, _ =>
        refine ⟨h, t ++ ['\n'] ++ (fenceLine ++ (c ++ (closeLine ++
          renderDoc (pairs'.map (fun e => (e.1 ++ ['\n'], e.2)))))), ?_, ?_, ?_⟩
        · simp [renderDoc_cons, renderEntry]
        · exact (hp.2.2.2.2.2 h (by simp)).1
        · intro hcontra
          have := (hp.2.2.2.2.2 h (by simp)).2
          rw [hcontra] at this
          exact absurd this (by decide)
    rw [parsePatchContent_renderDoc _ hgood hnice]
    rw [expectedPatches_mapped _ hpath, expectedDiags_mapped _ hpath]

theorem c1_wellformed_document_witness :
    parsePatchContent (renderDoc ([("src/a.py".toList, "x = 1".toList),
        ("b.py".toList, ['y'])].map (fun e => (e.1 ++ ['\n'], e.2)))) =
      ([("src/a.py".toList, "x = 1".toList), ("b.py".toList, ['y'])].map
        (fun e => (e.1, pyStrip e.2)), []) :=
  c1_wellformed_document [("src/a.py".toList, "x = 1".toList), ("b.py".toList, ['y'])]
    (by decide) (by decide) (by decide)

theorem extractPathTokens_fst_eq_filterMap (toks : List Chars) :
    (extractPathTokens toks).1 = toks.filterMap pathCandidate := by
  induction toks with
  | nil => rfl
  | cons t rest ih =>
    simp only [extractPathTokens, List.filterMap_cons, pathCandidate]
    by_cases h1 : filePathMatch (pathToken t) = true
    · by_cases h2 : (pathToken t).take 2 = ['.', '.']
      · simp [h1, h2, ih]
      · simp [h1, h2, ih]
    · simp [h1, ih]

theorem extractPathFromText_fst (text : Chars) :
    (extractPathFromText text).1 = (pathCandidates text).getLast? := by
  unfold extractPathFromText pathCandidates
  rw [extractPathTokens_fst_eq_filterMap]

theorem expectedPatches_eq_filterMap (es : List (Chars × Chars)) :
    expectedPatches es = es.filterMap (fun e => ((pathCandidates e.1).getLast?).map
      (fun p => (normalizeSlashes p, pyStrip e.2))) := by
  induction es with
  | nil => rfl
  | cons e es ih =>
    obtain ⟨pre, c⟩ := e
    rw [List.filterMap_cons]
    rw [show expectedPatches ((pre, c) :: es) = (match (extractPathFromText pre).1 with
      | some p => [(normalizeSlashes p, pyStrip c)] | none => []) ++ expectedPatches es from rfl]
    rw [ih, ← extractPathFromText_fst pre]
    rcases hopt : (extractPathFromText pre).1 with _ | p <;> simp [hopt]

/-- **C5**: a block's path is the last valid candidate token of the text
strictly between the previous block's end (or document start) and the
block's opening tag; in particular `"a.py and then b.py"` resolves to
`b.py`, not `a.py`. -/
theorem c5_last_path_token_wins :
    (∀ (es : List (Chars × Chars)), (∀ e ∈ es, GoodEntry e) → NiceHead (renderDoc es) →
      (parsePatchContent (renderDoc es)).1 =
        es.filterMap (fun e => ((pathCandidates e.1).getLast?).map
          (fun p => (normalizeSlashes p, pyStrip e.2)))) ∧
    extractPathFromText "a.py and then b.py".toList = (some "b.py".toList, []) ∧
    pathCandidates "a.py and then b.py".toList = ["a.py".toList, "b.py".toList] := by
  refine ⟨?_, by decide, by decide⟩
  intro es hgood hnice
  rw [parsePatchContent_renderDoc es hgood hnice]
  exact expectedPatches_eq_filterMap es

theorem c5_last_path_token_wins_witness :
    (parsePatchContent (renderDoc [("a.py and then b.py\n".toList, ['X'])])).1 =
      [("a.py and then b.py\n".toList, ['X'])].filterMap
        (fun e => ((pathCandidates e.1).getLast?).map
          (fun p => (normalizeSlashes p, pyStrip e.2))) :=
  c5_last_path_token_wins.1 [("a.py and then b.py\n".toList, ['X'])] (by decide)
    ⟨'a', (renderDoc [("a.py and then b.py\n".toList, ['X'])]).tail, by decide, by decide,
      by decide⟩

theorem extractPathTokens_diags_not_unclosed (toks : List Chars) :
    ∀ d ∈ (extractPathTokens toks).2, isUnclosedDiag d = false := by
  induction toks with
  | nil => intro d hd; simp [extractPathTokens] at hd
  | cons t rest ih =>
    intro d hd
    simp only [extractPathTokens] at hd
    by_cases h1 : filePathMatch (pathToken t) = true
    · by_cases h2 : (pathToken t).take 2 = ['.', '.']
      · simp only [h1, h2, if_true] at hd
        rcases List.mem_cons.mp hd with hd | hd
        · subst hd; rfl
        · exact ih d hd
      · simp only [h1, h2, if_true, if_neg] at hd
        exact ih d hd
    · simp only [h1] at hd
      exact ih d hd

theorem expectedDiags_no_unclosed (es : List (Chars × Chars)) :
    ∀ d ∈ expectedDiags es, isUnclosedDiag d = false := by
  induction es with
  | nil => intro d hd; simp [expectedDiags] at hd
  | cons e es ih =>
    obtain ⟨pre, c⟩ := e
    intro d hd
    simp only [expectedDiags, List.mem_append] at hd
    rcases hd with (hd | hd) | hd
    · exact extractPathTokens_diags_not_unclosed _ d hd
    · rcases hopt : (extractPathFromText pre).1 with _ | p <;> rw [hopt] at hd
      · simp at hd
        subst hd
        rfl
      · simp at hd
    · exact ih d hd

/-- The scanner on a rendered document followed by an unclosed opener:
the expected blocks, plus exactly one unclosed-fence warning carrying the
opener's line number. -/
theorem findBlocks_renderDoc_unclosed (es : List (Chars × Chars)) (pre' c' : Chars)
    (hgood : ∀ e ∈ es, GoodEntry e) (hpre' : GoodPre pre') (hc' : hasTriple c' = false) :
    findBlocksWithRegex (renderDoc es ++ (pre' ++ (fenceLine ++ c'))) =
      (expectedBlocks es 0,
        [Diag.unclosedFence (nlCount (renderDoc es) + nlCount pre' + 1)]) := by
  unfold findBlocksWithRegex
  have hm : findMarkers (renderDoc es ++ (pre' ++ (fenceLine ++ c'))) 0 0 =
      expectedMarkers es 0 0 ++
        [⟨(renderDoc es).length + pre'.length, ['`', '`', '`'], [],
          nlCount (renderDoc es) + nlCount pre' + 1,
          (renderDoc es).length + pre'.length + 4⟩] := by
    rw [findMarkers_renderDoc es _ 0 0 hgood]
    congr 1
    rw [findMarkers_skip_nl_last pre' hpre'.1 hpre'.2]
    rw [findMarkers_fence]
    rw [findMarkers_not_triple (@tripleAt_false_head '\n' rfl _)]
    rw [findMarkers_nil_of_noTriple c' hc']
    congr 1
    congr 1 <;> omega
  rw [hm, List.foldl_append]
  have hf := foldl_scanStep_renderDoc es (renderDoc es ++ (pre' ++ (fenceLine ++ c')))
    [] (pre' ++ (fenceLine ++ c')) 0 [] hgood (by simp)
  simp only [List.length_nil] at hf
  rw [hf]
  rw [List.foldl_cons, List.foldl_nil]
  show (sortBlocks ([] ++ expectedBlocks es 0), _) = _
  rw [List.nil_append, sortBlocks_sorted_id _ (expectedBlocks_pairwise es 0)]
  rfl

/-- **C6**: a fence opener with no matching closer yields zero patches for
that block and exactly one unclosed-fence diagnostic carrying the opener's
line number; the preceding well-formed entries parse normally. -/
theorem c6_unclosed_fence (es : List (Chars × Chars)) (pre' c' : Chars)
    (hgood : ∀ e ∈ es, GoodEntry e) (hpre' : GoodPre pre') (hc' : hasTriple c' = false)
    (hnice : NiceHead (renderDoc es ++ (pre' ++ (fenceLine ++ c')))) :
    parsePatchContent (renderDoc es ++ (pre' ++ (fenceLine ++ c'))) =
      (expectedPatches es,
        Diag.unclosedFence (nlCount (renderDoc es) + nlCount pre' + 1) ::
          expectedDiags es) ∧
    (parsePatchContent (renderDoc es ++ (pre' ++ (fenceLine ++ c')))).2.countP
        isUnclosedDiag = 1 := by
  obtain ⟨h, t, hd, hws, hbt⟩ := hnice
  have hmain : parsePatchContent (renderDoc es ++ (pre' ++ (fenceLine ++ c'))) =
      (expectedPatches es,
        Diag.unclosedFence (nlCount (renderDoc es) + nlCount pre' + 1) ::
          expectedDiags es) := by
    unfold parsePatchContent
    rw [hd, pyStrip_cons hws, if_neg (by simp), outerUnwrap_none_of_head hbt, ← hd]
    unfold parseBody
    rw [findBlocks_renderDoc_unclosed es pre' c' hgood hpre' hc']
    match es, hgood with
    | [], _ => rfl
    | (pre, c) :: es', hgood =>
      have hloop := foldl_loopStep_renderDoc ((pre, c) :: es')
        (renderDoc ((pre, c) :: es') ++ (pre' ++ (fenceLine ++ c')))
        [] (pre' ++ (fenceLine ++ c')) [] [] 0 hgood (by simp) (Or.inl rfl)
      simp only [List.length_nil] at hloop
      show (_, _) = _
      rw [show expectedBlocks ((pre, c) :: es') 0 =
        (0 + pre.length, 0 + pre.length + 4, 0 + pre.length + 4 + c.length, c) ::
          expectedBlocks es' (0 + pre.length + c.length + 9) from rfl] at hloop ⊢
      rw [hloop.1, hloop.2]
      simp
  refine ⟨hmain, ?_⟩
  rw [hmain]
  show List.countP _ (_ :: _) = 1
  rw [List.countP_cons]
  have hz : (expectedDiags es).countP isUnclosedDiag = 0 := by
    rw [List.countP_eq_zero]
    intro d hd
    simp [expectedDiags_no_unclosed es d hd]
  rw [hz]
  rfl

theorem c6_unclosed_fence_witness :
    parsePatchContent (renderDoc [("x.py\n".toList, ['A'])] ++
        ("y.py\n".toList ++ (fenceLine ++ "unclosed".toList))) =
      (expectedPatches [("x.py\n".toList, ['A'])],
        Diag.unclosedFence (nlCount (renderDoc [("x.py\n".toList, ['A'])]) +
          nlCount "y.py\n".toList + 1) :: expectedDiags [("x.py\n".toList, ['A'])]) ∧
    (parsePatchContent (renderDoc [("x.py\n".toList, ['A'])] ++
        ("y.py\n".toList ++ (fenceLine ++ "unclosed".toList)))).2.countP
      isUnclosedDiag = 1 :=
  c6_unclosed_fence [("x.py\n".toList, ['A'])] "y.py\n".toList "unclosed".toList
    (by decide) (by decide) (by decide)
    ⟨'x', (renderDoc [("x.py\n".toList, ['A'])] ++
      ("y.py\n".toList ++ (fenceLine ++ "unclosed".toList))).tail, by decide, by decide,
      by decide⟩

theorem replicate_head_backtick (n : Nat) :
    (List.replicate (n + 3) '`').head? = some '`' := by
  simp [List.replicate_succ]

/-- **C4**: an outer backtick fence of length `L` enclosing an inner fence
of length `l < L` (with its own info string and fence-run-free body) is
scanned as exactly ONE top-level block; the inner block closes while the
outer frame is still on the stack and is folded into the outer content,
which reproduces the inner fence lines verbatim. -/
theorem c4_longer_fence_wraps_shorter (L l : Nat) (lang m : Chars)
    (hl : 3 ≤ l) (hL : l < L)
    (hlang : ∀ a ∈ lang, isFence a = false ∧ isPySpace a = false)
    (hm : hasTriple m = false) :
    findBlocksWithRegex
      (List.replicate L '`' ++ ('\n' ::
        (List.replicate l '`' ++ (lang ++ '\n' ::
          (m ++ '\n' :: (List.replicate l '`' ++ ('\n' :: List.replicate L '`'))))))) =
      ([(0, L + 1, L + 1 + (l + lang.length + 1 + m.length + 1 + l),
          List.replicate l '`' ++ (lang ++ '\n' ::
            (m ++ '\n' :: List.replicate l '`')))], []) := by
  obtain ⟨ml, rfl⟩ : ∃ ml, l = ml + 3 := ⟨l - 3, by omega⟩
  obtain ⟨k, rfl⟩ : ∃ k, L = (ml + k + 1) + 3 := ⟨L - ml - 4, by omega⟩
  unfold findBlocksWithRegex
  set T2 : Chars := m ++ '\n' :: (List.replicate (ml + 3) '`' ++
    ('\n' :: List.replicate ((ml + k + 1) + 3) '`')) with hT2
  set T1 : Chars := List.replicate (ml + 3) '`' ++ (lang ++ '\n' :: T2) with hT1
  have hmarks : findMarkers (List.replicate ((ml + k + 1) + 3) '`' ++ ('\n' :: T1)) 0 0 =
      [⟨0, List.replicate ((ml + k + 1) + 3) '`', [], 1, (ml + k + 4) + 1⟩,
       ⟨(ml + k + 4) + 1, List.replicate (ml + 3) '`', lang, 2,
         (ml + k + 4) + 1 + (ml + 3) + lang.length + 1⟩,
       ⟨(ml + k + 4) + 1 + (ml + 3) + lang.length + 1 + m.length + 1,
         List.replicate (ml + 3) '`', [], 2 + nlCount m + 2,
         (ml + k + 4) + 1 + (ml + 3) + lang.length + 1 + m.length + 1 + (ml + 3) + 1⟩,
       ⟨(ml + k + 4) + 1 + (ml + 3) + lang.length + 1 + m.length + 1 + (ml + 3) + 1,
         List.replicate ((ml + k + 1) + 3) '`', [], 2 + nlCount m + 3,
         (ml + k + 4) + 1 + (ml + 3) + lang.length + 1 + m.length + 1 + (ml + 3) + 1 +
           (ml + k + 4)⟩] := by
    rw [show ('\n' :: T1) = ([] ++ '\n' :: T1) from rfl]
    rw [findMarkers_run (ml + k + 1) [] T1 (by simp) 0 0]
    rw [findMarkers_not_triple (@tripleAt_false_head '\n' rfl _)]
    rw [hT1, findMarkers_run ml lang T2 hlang]
    rw [findMarkers_not_triple (@tripleAt_false_head '\n' rfl _)]
    rw [hT2, findMarkers_skip_before_nl m hm]
    rw [findMarkers_not_triple (@tripleAt_false_head '\n' rfl _)]
    rw [show (List.replicate (ml + 3) '`' ++
      ('\n' :: List.replicate ((ml + k + 1) + 3) '`')) = (List.replicate (ml + 3) '`' ++
      ([] ++ '\n' :: List.replicate ((ml + k + 1) + 3) '`')) from by simp]
    rw [findMarkers_run ml [] _ (by simp)]
    rw [findMarkers_not_triple (@tripleAt_false_head '\n' rfl _)]
    rw [findMarkers_run_end (ml + k + 1)]
    simp only [List.length_nil, List.length_replicate, if_true]
    norm_num
  rw [hmarks]
  simp only [List.foldl_cons, List.foldl_nil]
  have s1 : scanStep (List.replicate ((ml + k + 1) + 3) '`' ++ ('\n' :: T1)) ([], [])
      ⟨0, List.replicate ((ml + k + 1) + 3) '`', [], 1, (ml + k + 4) + 1⟩ =
      ([⟨List.replicate ((ml + k + 1) + 3) '`', [], 1, (ml + k + 4) + 1, 0⟩], []) := rfl
  rw [s1]
  have s2 : scanStep (List.replicate ((ml + k + 1) + 3) '`' ++ ('\n' :: T1))
      ([⟨List.replicate ((ml + k + 1) + 3) '`', [], 1, (ml + k + 4) + 1, 0⟩], [])
      ⟨(ml + k + 4) + 1, List.replicate (ml + 3) '`', lang, 2,
        (ml + k + 4) + 1 + (ml + 3) + lang.length + 1⟩ =
      ([⟨List.replicate (ml + 3) '`', lang, 2,
          (ml + k + 4) + 1 + (ml + 3) + lang.length + 1, (ml + k + 4) + 1⟩,
        ⟨List.replicate ((ml + k + 1) + 3) '`', [], 1, (ml + k + 4) + 1, 0⟩], []) := by
    rw [scanStep_cons_eq]
    rw [if_neg]
    rintro ⟨-, hlen, -⟩
    simp only [List.length_replicate] at hlen
    omega
  rw [s2]
  have s3 : scanStep (List.replicate ((ml + k + 1) + 3) '`' ++ ('\n' :: T1))
      ([⟨List.replicate (ml + 3) '`', lang, 2,
          (ml + k + 4) + 1 + (ml + 3) + lang.length + 1, (ml + k + 4) + 1⟩,
        ⟨List.replicate ((ml + k + 1) + 3) '`', [], 1, (ml + k + 4) + 1, 0⟩], [])
      ⟨(ml + k + 4) + 1 + (ml + 3) + lang.length + 1 + m.length + 1,
        List.replicate (ml + 3) '`', [], 2 + nlCount m + 2,
        (ml + k + 4) + 1 + (ml + 3) + lang.length + 1 + m.length + 1 + (ml + 3) + 1⟩ =
      ([⟨List.replicate ((ml + k + 1) + 3) '`', [], 1, (ml + k + 4) + 1, 0⟩], []) := by
    rw [scanStep_cons_eq]
    rw [if_pos ⟨rfl, by simp, rfl⟩]
  rw [s3]
  have hget4 : (List.replicate ((ml + k + 1) + 3) '`' ++ ('\n' :: T1)).getD
      ((ml + k + 4) + 1 + (ml + 3) + lang.length + 1 + m.length + 1 + (ml + 3) + 1 - 1)
      ' ' = '\n' := by
    have hsh : List.replicate (ml + k + 1 + 3) '`' ++ ('\n' :: T1) =
        (List.replicate (ml + k + 1 + 3) '`' ++ ('\n' :: (List.replicate (ml + 3) '`' ++
          (lang ++ '\n' :: (m ++ '\n' :: List.replicate (ml + 3) '`'))))) ++
          ('\n' :: List.replicate (ml + k + 1 + 3) '`') := by
      rw [hT1, hT2]
      simp
    have hlenP : (List.replicate (ml + k + 1 + 3) '`' ++ ('\n' :: (List.replicate (ml + 3) '`'
        ++ (lang ++ '\n' :: (m ++ '\n' :: List.replicate (ml + 3) '`'))))).length =
        ml + k + 4 + 1 + (ml + 3) + lang.length + 1 + m.length + 1 + (ml + 3) := by
      simp only [List.length_append, List.length_cons, List.length_replicate]
      omega
    have h := getD_len_append (List.replicate (ml + k + 1 + 3) '`' ++
      ('\n' :: (List.replicate (ml + 3) '`' ++ (lang ++ '\n' :: (m ++ '\n' ::
        List.replicate (ml + 3) '`')))))
      ('\n' :: List.replicate (ml + k + 1 + 3) '`') 0 ' '
    rw [hlenP] at h
    have hidx : (ml + k + 4) + 1 + (ml + 3) + lang.length + 1 + m.length + 1 + (ml + 3) + 1
        - 1 = ml + k + 4 + 1 + (ml + 3) + lang.length + 1 + m.length + 1 + (ml + 3) + 0 := by
      omega
    rw [hidx, hsh, h]
    rfl
  have hslice4 : pySlice (List.replicate ((ml + k + 1) + 3) '`' ++ ('\n' :: T1))
      ((ml + k + 4) + 1)
      ((ml + k + 4) + 1 + (ml + 3) + lang.length + 1 + m.length + 1 + (ml + 3) + 1 - 1) =
      List.replicate (ml + 3) '`' ++ (lang ++ '\n' :: (m ++ '\n' ::
        List.replicate (ml + 3) '`')) := by
    have hsh2 : List.replicate (ml + k + 1 + 3) '`' ++ ('\n' :: T1) =
        (List.replicate (ml + k + 1 + 3) '`' ++ ['\n']) ++
          (List.replicate (ml + 3) '`' ++ (lang ++ '\n' :: (m ++ '\n' ::
            List.replicate (ml + 3) '`'))) ++
          ('\n' :: List.replicate (ml + k + 1 + 3) '`') := by
      rw [hT1, hT2]
      simp
    have h := pySlice_exact (List.replicate (ml + k + 1 + 3) '`' ++ ['\n'])
      (List.replicate (ml + 3) '`' ++ (lang ++ '\n' :: (m ++ '\n' ::
        List.replicate (ml + 3) '`')))
      ('\n' :: List.replicate (ml + k + 1 + 3) '`')
    have e1 : (List.replicate (ml + k + 1 + 3) '`' ++ ['\n']).length = (ml + k + 4) + 1 := by
      simp only [List.length_append, List.length_cons, List.length_replicate,
        List.length_nil]
    have e2 : (ml + k + 4) + 1 +
        (List.replicate (ml + 3) '`' ++ (lang ++ '\n' :: (m ++ '\n' ::
          List.replicate (ml + 3) '`'))).length =
        (ml + k + 4) + 1 + (ml + 3) + lang.length + 1 + m.length + 1 + (ml + 3) + 1 - 1 := by
      simp only [List.length_append, List.length_cons, List.length_replicate,
        List.length_nil]
      omega
    rw [e1, e2] at h
    rw [hsh2]
    exact h
  have s4 : scanStep (List.replicate ((ml + k + 1) + 3) '`' ++ ('\n' :: T1))
      ([⟨List.replicate ((ml + k + 1) + 3) '`', [], 1, (ml + k + 4) + 1, 0⟩], [])
      ⟨(ml + k + 4) + 1 + (ml + 3) + lang.length + 1 + m.length + 1 + (ml + 3) + 1,
        List.replicate ((ml + k + 1) + 3) '`', [], 2 + nlCount m + 3,
        (ml + k + 4) + 1 + (ml + 3) + lang.length + 1 + m.length + 1 + (ml + 3) + 1 +
          (ml + k + 4)⟩ =
      ([], [(0, (ml + k + 4) + 1,
        (ml + k + 4) + 1 + (ml + 3) + lang.length + 1 + m.length + 1 + (ml + 3) + 1 - 1,
        List.replicate (ml + 3) '`' ++ (lang ++ '\n' :: (m ++ '\n' ::
          List.replicate (ml + 3) '`')))]) := by
    rw [scanStep_cons_eq]
    rw [if_pos ⟨rfl, by simp, rfl⟩]
    dsimp only
    rw [if_pos ⟨by omega, hget4⟩]
    rw [hslice4]
    rfl
  rw [s4]
  show (sortBlocks [_], _) = _
  rw [show sortBlocks [(0, (ml + k + 4) + 1,
      (ml + k + 4) + 1 + (ml + 3) + lang.length + 1 + m.length + 1 + (ml + 3) + 1 - 1,
      List.replicate (ml + 3) '`' ++ (lang ++ '\n' :: (m ++ '\n' ::
        List.replicate (ml + 3) '`')))] = [(0, (ml + k + 4) + 1,
      (ml + k + 4) + 1 + (ml + 3) + lang.length + 1 + m.length + 1 + (ml + 3) + 1 - 1,
      List.replicate (ml + 3) '`' ++ (lang ++ '\n' :: (m ++ '\n' ::
        List.replicate (ml + 3) '`')))] from rfl]
  dsimp only [List.reverse_nil, List.map_nil]
  rw [show ml + k + 4 + 1 = ml + k + 1 + 3 + 1 from by omega]
  rw [show ml + k + 1 + 3 + 1 + (ml + 3) + List.length lang + 1 + List.length m + 1 +
      (ml + 3) + 1 - 1 = ml + k + 1 + 3 + 1 +
      (ml + 3 + List.length lang + 1 + List.length m + 1 + (ml + 3)) from by omega]

theorem c4_longer_fence_wraps_shorter_witness :
    findBlocksWithRegex
      (List.replicate 4 '`' ++ ('\n' ::
        (List.replicate 3 '`' ++ ("python".toList ++ '\n' ::
          ("x = 1".toList ++ '\n' ::
            (List.replicate 3 '`' ++ ('\n' :: List.replicate 4 '`'))))))) =
      ([(0, 5, 5 + (3 + 6 + 1 + 5 + 1 + 3),
          List.replicate 3 '`' ++ ("python".toList ++ '\n' ::
            ("x = 1".toList ++ '\n' :: List.replicate 3 '`')))], []) :=
  c4_longer_fence_wraps_shorter 4 3 "python".toList "x = 1".toList (by decide) (by decide)
    (by decide) (by decide)

/-! ## Dump round-trip lemmas -/

theorem headerAt_none_take3 {t : Chars} (h : t.take 3 ≠ ['-', '-', '-']) :
    headerAt t = none := by
  unfold headerAt
  rw [if_neg h]

theorem headerAt_none_of_head {c : Char} (h : c ≠ '-') (t : Chars) :
    headerAt (c :: t) = none := by
  apply headerAt_none_take3
  intro heq
  have h2 : c :: t.take 2 = ['-', '-', '-'] := heq
  injection h2 with h3 _
  exact h h3

theorem headerAt_none_tag {t : Chars} (h3 : t.take 3 = ['-', '-', '-'])
    (h : ¬(((t.drop 3).takeWhile isPySpace).getLast? = some '\n' ∧
        ((t.drop 3).drop ((t.drop 3).takeWhile isPySpace).length).take 5 = fileTag)) :
    headerAt t = none := by
  unfold headerAt
  rw [if_pos h3, if_neg h]

theorem fileTag_window_left {a z : Chars} (h : (a ++ '\n' :: z).take 5 = fileTag) :
    5 ≤ a.length ∧ a.take 5 = fileTag := by
  rw [List.take_append_eq_append_take] at h
  by_cases hlen : 5 ≤ a.length
  · rw [show 5 - a.length = 0 from by omega] at h
    simp only [List.take_zero, List.append_nil] at h
    exact ⟨hlen, h⟩
  · exfalso
    rw [List.take_of_length_le (by omega)] at h
    rw [show 5 - a.length = (5 - a.length - 1) + 1 from by omega] at h
    have : '\n' ∈ fileTag := by
      rw [← h]
      simp [List.take_succ_cons]
    exact absurd this (by decide)

theorem hasSub_of_window {pat : Chars} (hne : pat ≠ []) :
    ∀ (l : Chars) (j : Nat), (l.drop j).take pat.length = pat → hasSub pat l = true := by
  intro l
  induction l with
  | nil =>
    intro j h
    rw [List.drop_nil, List.take_nil] at h
    exact absurd h.symm hne
  | cons c rest ih =>
    intro j h
    cases j with
    | zero =>
      rw [List.drop_zero] at h
      unfold hasSub
      rw [decide_eq_true h]
      simp
    | succ j' =>
      have h2 := ih j' (by simpa using h)
      unfold hasSub
      rw [h2]
      simp

theorem hasSub_drop_false {pat l : Chars} (h : hasSub pat l = false) :
    ∀ (j : Nat), hasSub pat (l.drop j) = false := by
  induction l with
  | nil => intro j; simpa using h
  | cons c rest ih =>
    intro j
    cases j with
    | zero => exact h
    | succ j' =>
      have h2 : hasSub pat rest = false := by
        unfold hasSub at h
        exact (Bool.or_eq_false_iff.mp h).2
      exact ih h2 j'

theorem dropWhile_head_false {p : Char → Bool} :
    ∀ {l : Chars} {b : Char} {v : Chars}, l.dropWhile p = b :: v → p b = false := by
  intro l
  induction l with
  | nil => intro b v h; simp at h
  | cons a t ih =>
    intro b v h
    rw [List.dropWhile_cons] at h
    by_cases ha : p a = true
    · rw [if_pos ha] at h
      exact ih h
    · rw [if_neg ha] at h
      injection h with h1 _
      rw [h1] at ha
      exact Bool.eq_false_iff.mpr ha

theorem nf_of_hasSub {c : Chars} (h : hasSub fileTag c = false) :
    ∀ j, 1 ≤ j → ((c.drop j).take 5 = fileTag) → c.getD (j - 1) ' ' ≠ '\n' := by
  intro j _ hw _
  have := @hasSub_of_window fileTag (by decide) c j hw
  rw [h] at this
  exact absurd this (by decide)

theorem nf_lang {a c : Chars} (ha : '\n' ∉ a) (hc : hasSub fileTag c = false) :
    ∀ j, 1 ≤ j → (((a ++ '\n' :: c).drop j).take 5 = fileTag) →
      (a ++ '\n' :: c).getD (j - 1) ' ' ≠ '\n' := by
  intro j hj hw hlast
  by_cases hja : j ≤ a.length
  · have hlt : j - 1 < a.length := by omega
    rw [List.getD_append a ('\n' :: c) ' ' (j - 1) hlt,
      List.getD_eq_getElem a ' ' hlt] at hlast
    exact ha (hlast ▸ List.getElem_mem hlt)
  · have hdrop : (a ++ '\n' :: c).drop j = c.drop (j - a.length - 1) := by
      rw [List.drop_append_eq_append_drop, List.drop_eq_nil_of_le (by omega),
        List.nil_append, show j - a.length = (j - a.length - 1) + 1 from by omega,
        List.drop_succ_cons, show j - a.length - 1 + 1 - 1 = j - a.length - 1 from by omega]
    rw [hdrop] at hw
    have := @hasSub_of_window fileTag (by decide) (c.drop (j - a.length - 1)) 0
      (by rw [List.drop_zero]; exact hw)
    rw [hasSub_drop_false hc _] at this
    exact absurd this (by decide)

theorem headerAt_none_guard (x z : Chars)
    (hNF : ∀ j, 1 ≤ j → ((x.drop j).take 5 = fileTag) → x.getD (j - 1) ' ' ≠ '\n') :
    headerAt (x ++ '\n' :: '`' :: '`' :: '`' :: z) = none := by
  match x with
  | [] => exact headerAt_none_of_head (by decide) _
  | [a] =>
    apply headerAt_none_take3
    intro heq
    have h2 : ([a, '\n', '`'] : Chars) = ['-', '-', '-'] := heq
    simp at h2
  | [a, b] =>
    apply headerAt_none_take3
    intro heq
    have h2 : ([a, b, '\n'] : Chars) = ['-', '-', '-'] := heq
    simp at h2
  | x0 :: x1 :: x2 :: y =>
    by_cases h3 : ((x0 :: x1 :: x2 :: y : Chars) ++ '\n' :: '`' :: '`' :: '`' :: z).take 3 =
        ['-', '-', '-']
    · apply headerAt_none_tag h3
      rw [show ((x0 :: x1 :: x2 :: y : Chars) ++ '\n' :: '`' :: '`' :: '`' :: z).drop 3 =
        y ++ '\n' :: '`' :: '`' :: '`' :: z from rfl]
      cases hv : y.dropWhile isPySpace with
      | nil =>
        have hy : y.takeWhile isPySpace ++ ([] : Chars) = y := by
          rw [← hv]
          exact List.takeWhile_append_dropWhile _ _
        rw [List.append_nil] at hy
        have hall : ∀ a ∈ y, isPySpace a = true := by
          intro a hay
          exact List.mem_takeWhile_imp (hy ▸ hay)
        have h1 : (y ++ '\n' :: '`' :: '`' :: '`' :: z).takeWhile isPySpace = y ++ ['\n'] := by
          rw [takeWhile_append_of_all hall]
          rfl
        intro hAB
        have hB := hAB.2
        rw [h1] at hB
        have hdrop : (y ++ '\n' :: '`' :: '`' :: '`' :: z).drop (y ++ ['\n']).length =
            '`' :: '`' :: '`' :: z := by
          rw [List.length_append, List.length_cons, List.length_nil,
            show y.length + (0 + 1) = y.length + 1 from by omega,
            ← List.drop_drop, drop_len_append, List.drop_one]
          rfl
        rw [hdrop] at hB
        have h2 : ('`' : Char) = 'F' := by
          have h5 : ('`' :: '`' :: '`' :: z.take 2 : Chars) = fileTag := hB
          injection h5
        simp at h2
      | cons b v' =>
        have hb : isPySpace b = false := dropWhile_head_false hv
        have hyd : y = y.takeWhile isPySpace ++ b :: v' := by
          rw [← hv]
          exact (List.takeWhile_append_dropWhile _ _).symm
        have hall : ∀ a ∈ y.takeWhile isPySpace, isPySpace a = true := by
          intro a hau
          exact List.mem_takeWhile_imp hau
        have h1 : (y ++ '\n' :: '`' :: '`' :: '`' :: z).takeWhile isPySpace =
            y.takeWhile isPySpace := by
          conv_lhs => rw [hyd]
          rw [List.append_assoc, List.cons_append]
          exact takeWhile_append_all hall hb _
        intro hAB
        obtain ⟨hA, hB⟩ := hAB
        rw [h1] at hA hB
        obtain ⟨ys, hys⟩ := List.getLast?_eq_some_iff.mp hA
        have hdrop : (y ++ '\n' :: '`' :: '`' :: '`' :: z).drop
            (y.takeWhile isPySpace).length = (b :: v') ++ '\n' :: '`' :: '`' :: '`' :: z := by
          have e1 : y ++ '\n' :: '`' :: '`' :: '`' :: z =
              y.takeWhile isPySpace ++ ((b :: v') ++ '\n' :: '`' :: '`' :: '`' :: z) := by
            conv_lhs => rw [hyd]
            rw [List.append_assoc]
          rw [e1, drop_len_append]
        rw [hdrop] at hB
        obtain ⟨hlen5, hwin⟩ := fileTag_window_left hB
        have hxdrop : (x0 :: x1 :: x2 :: y : Chars).drop
            (3 + (y.takeWhile isPySpace).length) = b :: v' := by
          rw [show 3 + (y.takeWhile isPySpace).length =
            (y.takeWhile isPySpace).length + 1 + 1 + 1 from by omega,
            List.drop_succ_cons, List.drop_succ_cons, List.drop_succ_cons]
          nth_rewrite 2 [hyd]
          exact drop_len_append _ _
        have hcontr := hNF (3 + (y.takeWhile isPySpace).length) (by omega)
          (by rw [hxdrop]; exact hwin)
        apply hcontr
        rw [show 3 + (y.takeWhile isPySpace).length - 1 =
          ((y.takeWhile isPySpace).length - 1) + 1 + 1 + 1 from by
            have h9 : 1 ≤ (y.takeWhile isPySpace).length := by
              rw [hys]
              simp
            omega,
          List.getD_cons_succ, List.getD_cons_succ, List.getD_cons_succ]
        nth_rewrite 1 [hyd]
        rw [show (y.takeWhile isPySpace).length - 1 = ys.length from by rw [hys]; simp]
        rw [hys, List.append_assoc]
        rw [show ((['\n'] : Chars) ++ b :: v') = '\n' :: (b :: v') from rfl]
        rw [show ys.length = ys.length + 0 from by omega]
        rw [getD_len_append]
        rfl
    · exact headerAt_none_take3 h3

theorem findHeadersF_congr (f₁ : Nat) : ∀ (f₂ : Nat) (l : Chars) (pos : Nat) (a : Bool),
    l.length ≤ f₁ → l.length ≤ f₂ → findHeadersF f₁ l pos a = findHeadersF f₂ l pos a := by
  induction f₁ with
  | zero =>
    intro f₂ l pos a h1 _
    have : l = [] := List.length_eq_zero.mp (Nat.le_zero.mp h1)
    subst this
    cases f₂ <;> rfl
  | succ f ih =>
    intro f₂ l pos a h1 h2
    match l with
    | [] => cases f₂ <;> rfl
    | c :: rest =>
      match f₂, h2 with
      | f₂' + 1, h2' =>
        rw [findHeadersF, findHeadersF]
        have hr : rest.length ≤ f := by simpa using h1
        have hr₂ : rest.length ≤ f₂' := by simpa using h2'
        cases hAt : (if a then headerAt (c :: rest) else none) with
        | none => exact ih f₂' rest (pos + 1) _ hr hr₂
        | some lp =>
          obtain ⟨len, p⟩ := lp
          dsimp only
          congr 1
          have hlen : (rest.drop (len - 1)).length ≤ rest.length := by
            simp [List.length_drop]
          exact ih f₂' _ _ _ (le_trans hlen hr) (le_trans hlen hr₂)

theorem findHeadersF_skip : ∀ (u rest : Chars) (pos : Nat) (a : Bool),
    (∀ i, i < u.length → headerAt (u.drop i ++ rest) = none) →
    findHeadersF (u.length + rest.length) (u ++ rest) pos a =
      findHeadersF rest.length rest (pos + u.length)
        (u.foldl (fun _ c => c == '\n') a) := by
  intro u
  induction u with
  | nil =>
    intro rest pos a _
    simp
  | cons c u' ih =>
    intro rest pos a h
    have h0 : headerAt (c :: (u' ++ rest)) = none := by
      have h1 := h 0 (by simp)
      simpa using h1
    rw [show (c :: u').length + rest.length = (u'.length + rest.length) + 1 from by
      simp; omega]
    rw [show ((c :: u') ++ rest : Chars) = c :: (u' ++ rest) from rfl]
    rw [findHeadersF, h0]
    rw [show (if a then (none : Option (Nat × Chars)) else none) = none from by
      cases a <;> rfl]
    have ih2 := ih rest (pos + 1) (c == '\n') (by
      intro i hi
      have h3 := h (i + 1) (by simp; omega)
      simpa using h3)
    rw [ih2]
    rw [show pos + 1 + u'.length = pos + (c :: u').length from by simp; omega]
    rfl

theorem foldl_newline_flag (v : Chars) (a : Bool) :
    ((v ++ ['\n']).foldl (fun _ c => c == '\n') a) = true := by
  rw [List.foldl_append]
  rfl

theorem findHeadersF_step (t : Chars) (pos len : Nat) (p : Chars)
    (hne : t ≠ []) (hh : headerAt t = some (len, p)) (hlen : 1 ≤ len) :
    findHeadersF t.length t pos true =
      (pos, pos + len, p) ::
        findHeadersF (t.length - len) (t.drop len) (pos + len)
          (t.getD (len - 1) ' ' == '\n') := by
  obtain ⟨m, rfl⟩ : ∃ m, len = m + 1 := ⟨len - 1, by omega⟩
  match t, hne with
  | c :: r, _ =>
    rw [show (c :: r : Chars).length = r.length + 1 from by simp]
    rw [findHeadersF]
    rw [if_pos (rfl : (true : Bool) = true)]
    rw [hh]
    dsimp only
    congr 1
    rw [show m + 1 - 1 = m from by omega, List.drop_succ_cons]
    apply findHeadersF_congr
    · simp
    · simp

theorem dumpTail_no_header (lang c w rest : Chars) (hl : '\n' ∉ lang)
    (hc : hasSub fileTag c = false) (hwn : ∀ a ∈ w, a = '\n') :
    ∀ i, i < ('\n' :: '`' :: '`' :: '`' ::
        (lang ++ '\n' :: (c ++ '\n' :: '`' :: '`' :: '`' :: w)) : Chars).length →
      headerAt (('\n' :: '`' :: '`' :: '`' ::
        (lang ++ '\n' :: (c ++ '\n' :: '`' :: '`' :: '`' :: w)) : Chars).drop i ++ rest) =
        none := by
  intro i hi
  have hi' : i < 4 + (lang.length + (1 + (c.length + (4 + w.length)))) := by
    have h9 := hi
    simp only [List.length_cons, List.length_append] at h9
    omega
  match i with
  | 0 => exact headerAt_none_of_head (by decide) _
  | 1 => exact headerAt_none_of_head (by decide) _
  | 2 => exact headerAt_none_of_head (by decide) _
  | 3 => exact headerAt_none_of_head (by decide) _
  | j + 4 =>
    rw [show ('\n' :: '`' :: '`' :: '`' ::
        (lang ++ '\n' :: (c ++ '\n' :: '`' :: '`' :: '`' :: w)) : Chars).drop (j + 4) =
      (lang ++ '\n' :: (c ++ '\n' :: '`' :: '`' :: '`' :: w)).drop j from rfl]
    by_cases hj : j < lang.length
    · have e : (lang ++ '\n' :: (c ++ '\n' :: '`' :: '`' :: '`' :: w)).drop j ++ rest =
          (lang.drop j ++ '\n' :: c) ++ '\n' :: '`' :: '`' :: '`' :: (w ++ rest) := by
        rw [List.drop_append_eq_append_drop, show j - lang.length = 0 from by omega,
          List.drop_zero]
        simp
      rw [e]
      apply headerAt_none_guard
      apply nf_lang
      · intro hmem
        exact hl (List.drop_subset _ _ hmem)
      · exact hc
    · have e0 : (lang ++ '\n' :: (c ++ '\n' :: '`' :: '`' :: '`' :: w)).drop j =
          ('\n' :: (c ++ '\n' :: '`' :: '`' :: '`' :: w)).drop (j - lang.length) := by
        rw [List.drop_append_eq_append_drop, List.drop_eq_nil_of_le (by omega),
          List.nil_append]
      rw [e0]
      match hk : j - lang.length with
      | 0 => exact headerAt_none_of_head (by decide) _
      | k' + 1 =>
        rw [List.drop_succ_cons]
        by_cases hkc : k' < c.length
        · have e : (c ++ '\n' :: '`' :: '`' :: '`' :: w).drop k' ++ rest =
              (c.drop k') ++ '\n' :: '`' :: '`' :: '`' :: (w ++ rest) := by
            rw [List.drop_append_eq_append_drop, show k' - c.length = 0 from by omega,
              List.drop_zero]
            simp
          rw [e]
          apply headerAt_none_guard
          exact nf_of_hasSub (hasSub_drop_false hc k')
        · have e1 : (c ++ '\n' :: '`' :: '`' :: '`' :: w).drop k' =
              ('\n' :: '`' :: '`' :: '`' :: w).drop (k' - c.length) := by
            rw [List.drop_append_eq_append_drop, List.drop_eq_nil_of_le (by omega),
              List.nil_append]
          rw [e1]
          match hm : k' - c.length with
          | 0 => exact headerAt_none_of_head (by decide) _
          | 1 => exact headerAt_none_of_head (by decide) _
          | 2 => exact headerAt_none_of_head (by decide) _
          | 3 => exact headerAt_none_of_head (by decide) _
          | m + 4 =>
            rw [show ('\n' :: '`' :: '`' :: '`' :: w : Chars).drop (m + 4) = w.drop m from
              rfl]
            have hmw : m < w.length := by omega
            rw [List.drop_eq_getElem_cons hmw]
            rw [hwn (w[m]) (List.getElem_mem hmw)]
            exact headerAt_none_of_head (by decide) _

theorem dropWhile_eq_self_of_strip {p : Chars} (hps : pyStrip p = p) :
    p.dropWhile isPySpace = p := by
  have h1 : (p.dropWhile isPySpace).length ≤ p.length := (List.dropWhile_suffix _).length_le
  have h2 : (pyStrip p).length ≤ (p.dropWhile isPySpace).length := by
    unfold pyStrip dropTrailingWs
    calc ((p.dropWhile isPySpace).reverse.dropWhile isPySpace).reverse.length
        = ((p.dropWhile isPySpace).reverse.dropWhile isPySpace).length :=
          List.length_reverse _
      _ ≤ (p.dropWhile isPySpace).reverse.length := (List.dropWhile_suffix _).length_le
      _ = (p.dropWhile isPySpace).length := List.length_reverse _
  rw [hps] at h2
  exact (List.dropWhile_suffix _).eq_of_length (by omega)

theorem head_not_ws_of_strip {p : Chars} (hps : pyStrip p = p) {c : Char} {t : Chars}
    (hct : p = c :: t) : isPySpace c = false := by
  have hd := dropWhile_eq_self_of_strip hps
  rw [hct, List.dropWhile_cons] at hd
  by_cases hc : isPySpace c = true
  · rw [if_pos hc] at hd
    have h3 := congrArg List.length hd
    have hle : (t.dropWhile isPySpace).length ≤ t.length := (List.dropWhile_suffix _).length_le
    simp only [List.length_cons] at h3
    omega
  · exact Bool.eq_false_iff.mpr hc

theorem headerAt_render (p lang c : Chars) (hp : p ≠ []) (hpnl : '\n' ∉ p)
    (hps : pyStrip p = p) (s : Chars) :
    headerAt (renderDumpFile p lang c ++ s) = some (14 + p.length, p) := by
  match p, hp with
  | c0 :: t0, _ =>
  have hc0 : isPySpace c0 = false := head_not_ws_of_strip hps rfl
  have hR : renderDumpFile (c0 :: t0) lang c ++ s =
      '-' :: '-' :: '-' :: '\n' :: 'F' :: 'i' :: 'l' :: 'e' :: ':' :: ' ' ::
        ((c0 :: t0) ++ '\n' :: '-' :: '-' :: '-' :: '\n' :: '`' :: '`' :: '`' ::
          (lang ++ '\n' :: (c ++ '\n' :: '`' :: '`' :: '`' :: s))) := by
    simp [renderDumpFile, fileTag]
  rw [hR]
  simp only [headerAt]
  have h1 : List.take 3 ('-' :: '-' :: '-' :: '\n' :: 'F' :: 'i' :: 'l' :: 'e' :: ':' :: ' ' ::
        ((c0 :: t0) ++ '\n' :: '-' :: '-' :: '-' :: '\n' :: '`' :: '`' :: '`' ::
          (lang ++ '\n' :: (c ++ '\n' :: '`' :: '`' :: '`' :: s)))) = ['-', '-', '-'] := rfl
  rw [if_pos h1]
  have hA : List.takeWhile isPySpace (List.drop 3 ('-' :: '-' :: '-' :: '\n' :: 'F' :: 'i' :: 'l' :: 'e' :: ':' :: ' ' ::
        ((c0 :: t0) ++ '\n' :: '-' :: '-' :: '-' :: '\n' :: '`' :: '`' :: '`' ::
          (lang ++ '\n' :: (c ++ '\n' :: '`' :: '`' :: '`' :: s))))) = ['\n'] := rfl
  rw [hA]
  have h2 : (['\n'] : Chars).getLast? = some '\n' ∧
      List.take 5 (List.drop (List.length (['\n'] : Chars)) (List.drop 3 ('-' :: '-' :: '-' :: '\n' :: 'F' :: 'i' :: 'l' :: 'e' :: ':' :: ' ' ::
        ((c0 :: t0) ++ '\n' :: '-' :: '-' :: '-' :: '\n' :: '`' :: '`' :: '`' ::
          (lang ++ '\n' :: (c ++ '\n' :: '`' :: '`' :: '`' :: s)))))) =
        fileTag := ⟨rfl, rfl⟩
  rw [if_pos h2]
  have hB : List.takeWhile isPySpace
      (List.drop (List.length (['\n'] : Chars) + 5) (List.drop 3 ('-' :: '-' :: '-' :: '\n' :: 'F' :: 'i' :: 'l' :: 'e' :: ':' :: ' ' ::
        ((c0 :: t0) ++ '\n' :: '-' :: '-' :: '-' :: '\n' :: '`' :: '`' :: '`' ::
          (lang ++ '\n' :: (c ++ '\n' :: '`' :: '`' :: '`' :: s)))))) = [' '] := by
    rw [show List.drop (List.length (['\n'] : Chars) + 5) (List.drop 3 ('-' :: '-' :: '-' :: '\n' :: 'F' :: 'i' :: 'l' :: 'e' :: ':' :: ' ' ::
        ((c0 :: t0) ++ '\n' :: '-' :: '-' :: '-' :: '\n' :: '`' :: '`' :: '`' ::
          (lang ++ '\n' :: (c ++ '\n' :: '`' :: '`' :: '`' :: s))))) =
      ([' '] : Chars) ++ c0 :: (t0 ++ ('\n' :: '-' :: '-' :: '-' :: '\n' :: '`' :: '`' :: '`' ::
        (lang ++ '\n' :: (c ++ '\n' :: '`' :: '`' :: '`' :: s)) : Chars)) from rfl]
    refine takeWhile_append_all ?_ ?_ _
    · intro a ha
      simp at ha
      rw [ha]
      rfl
    · exact hc0
  rw [hB]
  have hC : List.takeWhile (fun x => decide (x ≠ '\n'))
      (List.drop (List.length ([' '] : Chars))
        (List.drop (List.length (['\n'] : Chars) + 5) (List.drop 3 ('-' :: '-' :: '-' :: '\n' :: 'F' :: 'i' :: 'l' :: 'e' :: ':' :: ' ' ::
        ((c0 :: t0) ++ '\n' :: '-' :: '-' :: '-' :: '\n' :: '`' :: '`' :: '`' ::
          (lang ++ '\n' :: (c ++ '\n' :: '`' :: '`' :: '`' :: s))))))) = c0 :: t0 := by
    rw [show List.drop (List.length ([' '] : Chars))
      (List.drop (List.length (['\n'] : Chars) + 5) (List.drop 3 ('-' :: '-' :: '-' :: '\n' :: 'F' :: 'i' :: 'l' :: 'e' :: ':' :: ' ' ::
        ((c0 :: t0) ++ '\n' :: '-' :: '-' :: '-' :: '\n' :: '`' :: '`' :: '`' ::
          (lang ++ '\n' :: (c ++ '\n' :: '`' :: '`' :: '`' :: s)))))) =
      (c0 :: t0) ++ ('\n' :: '-' :: '-' :: '-' :: '\n' :: '`' :: '`' :: '`' ::
        (lang ++ '\n' :: (c ++ '\n' :: '`' :: '`' :: '`' :: s)) : Chars) from rfl]
    refine takeWhile_append_all ?_ ?_ _
    · intro a ha
      exact decide_eq_true (fun h => hpnl (h ▸ ha))
    · decide
  rw [hC]
  rw [if_neg (by simp : ¬(c0 :: t0 = ([] : Chars)))]
  have hD : List.drop (List.length ([' '] : Chars) + List.length (c0 :: t0 : Chars))
      (List.drop (List.length (['\n'] : Chars) + 5) (List.drop 3 ('-' :: '-' :: '-' :: '\n' :: 'F' :: 'i' :: 'l' :: 'e' :: ':' :: ' ' ::
        ((c0 :: t0) ++ '\n' :: '-' :: '-' :: '-' :: '\n' :: '`' :: '`' :: '`' ::
          (lang ++ '\n' :: (c ++ '\n' :: '`' :: '`' :: '`' :: s)))))) = ('\n' :: '-' :: '-' :: '-' :: '\n' :: '`' :: '`' :: '`' ::
        (lang ++ '\n' :: (c ++ '\n' :: '`' :: '`' :: '`' :: s)) : Chars) := by
    rw [show List.drop (List.length (['\n'] : Chars) + 5) (List.drop 3 ('-' :: '-' :: '-' :: '\n' :: 'F' :: 'i' :: 'l' :: 'e' :: ':' :: ' ' ::
        ((c0 :: t0) ++ '\n' :: '-' :: '-' :: '-' :: '\n' :: '`' :: '`' :: '`' ::
          (lang ++ '\n' :: (c ++ '\n' :: '`' :: '`' :: '`' :: s))))) =
      (([' '] : Chars) ++ (c0 :: t0)) ++ ('\n' :: '-' :: '-' :: '-' :: '\n' :: '`' :: '`' :: '`' ::
        (lang ++ '\n' :: (c ++ '\n' :: '`' :: '`' :: '`' :: s)) : Chars) from rfl]
    rw [show List.length ([' '] : Chars) + List.length (c0 :: t0 : Chars) =
      (([' '] : Chars) ++ (c0 :: t0)).length from by simp; omega]
    exact drop_len_append _ _
  rw [hD]
  have hE : List.takeWhile isPySpace ('\n' :: '-' :: '-' :: '-' :: '\n' :: '`' :: '`' :: '`' ::
        (lang ++ '\n' :: (c ++ '\n' :: '`' :: '`' :: '`' :: s)) : Chars) = ['\n'] := rfl
  rw [hE]
  have hF : (['\n'] : Chars).getLast? = some '\n' ∧
      List.take 3 (List.drop (List.length (['\n'] : Chars)) ('\n' :: '-' :: '-' :: '-' :: '\n' :: '`' :: '`' :: '`' ::
        (lang ++ '\n' :: (c ++ '\n' :: '`' :: '`' :: '`' :: s)) : Chars)) = ['-', '-', '-'] :=
    ⟨rfl, rfl⟩
  rw [if_pos hF]
  have hG : List.takeWhile isPySpace
      (List.drop (List.length (['\n'] : Chars) + 3) ('\n' :: '-' :: '-' :: '-' :: '\n' :: '`' :: '`' :: '`' ::
        (lang ++ '\n' :: (c ++ '\n' :: '`' :: '`' :: '`' :: s)) : Chars)) = ['\n'] := rfl
  rw [hG]
  have hH : List.drop (List.length (['\n'] : Chars))
      (List.drop (List.length (['\n'] : Chars) + 3) ('\n' :: '-' :: '-' :: '-' :: '\n' :: '`' :: '`' :: '`' ::
        (lang ++ '\n' :: (c ++ '\n' :: '`' :: '`' :: '`' :: s)) : Chars)) =
      '`' :: '`' :: '`' :: (lang ++ '\n' :: (c ++ '\n' :: '`' :: '`' :: '`' :: s)) := rfl
  rw [hH]
  rw [if_neg (by simp :
    ¬('`' :: '`' :: '`' :: (lang ++ '\n' :: (c ++ '\n' :: '`' :: '`' :: '`' :: s)) =
      ([] : Chars)))]
  have hI : (List.reverse (['\n'] : Chars)).findIdx? (fun x => decide (x = '\n')) =
      some 0 := rfl
  rw [hI]
  dsimp only
  simp only [List.length_cons, List.length_nil, Option.some.injEq, Prod.mk.injEq]
  exact ⟨by omega, trivial⟩
theorem findSome_rev_range : ∀ (n j : Nat) (f : Nat → Option Chars) (v : Chars),
    j < n → (∀ k, j < k → k < n → f k = none) → f j = some v →
    ((List.range n).reverse.findSome? f) = some v := by
  intro n
  induction n with
  | zero => intro j f v hj _ _; omega
  | succ m ih =>
    intro j f v hj hnone hf
    rw [List.range_succ, List.reverse_append,
      show (([m] : List Nat).reverse ++ (List.range m).reverse) =
        m :: (List.range m).reverse from rfl,
      List.findSome?_cons]
    by_cases hjm : j = m
    · subst hjm
      rw [hf]
    · have hm : f m = none := hnone m (by omega) (by omega)
      rw [hm]
      exact ih j f v (by omega) (fun k h1 h2 => hnone k h1 (by omega)) hf

theorem codeExtract_render (lang c w : Chars) (hlnl : '\n' ∉ lang)
    (hwall : ∀ a ∈ w, a = '\n') :
    codeExtract ('\n' :: '`' :: '`' :: '`' :: (lang ++ '\n' :: (c ++ '\n' :: '`' :: '`' :: '`' :: w)) : Chars) = some c := by
  have hwws : ∀ a ∈ w, isPySpace a = true := by
    intro a ha
    rw [hwall a ha]
    rfl
  simp only [codeExtract]
  have h1 : List.takeWhile isPySpace ('\n' :: '`' :: '`' :: '`' :: (lang ++ '\n' :: (c ++ '\n' :: '`' :: '`' :: '`' :: w)) : Chars) = ['\n'] := rfl
  rw [h1]
  have h2 : List.take 3 (List.drop (List.length (['\n'] : Chars)) ('\n' :: '`' :: '`' :: '`' :: (lang ++ '\n' :: (c ++ '\n' :: '`' :: '`' :: '`' :: w)) : Chars)) =
      ['`', '`', '`'] := rfl
  rw [if_pos h2]
  have h3 : List.takeWhile (fun x => decide (x ≠ '\n'))
      (List.drop 3 (List.drop (List.length (['\n'] : Chars)) ('\n' :: '`' :: '`' :: '`' :: (lang ++ '\n' :: (c ++ '\n' :: '`' :: '`' :: '`' :: w)) : Chars))) = lang := by
    rw [show List.drop 3 (List.drop (List.length (['\n'] : Chars)) ('\n' :: '`' :: '`' :: '`' :: (lang ++ '\n' :: (c ++ '\n' :: '`' :: '`' :: '`' :: w)) : Chars)) =
      lang ++ '\n' :: (c ++ '\n' :: '`' :: '`' :: '`' :: w) from rfl]
    refine takeWhile_append_all ?_ ?_ _
    · intro a ha
      exact decide_eq_true (fun h => hlnl (h ▸ ha))
    · decide
  rw [h3]
  rw [show List.drop lang.length
      (List.drop 3 (List.drop (List.length (['\n'] : Chars)) ('\n' :: '`' :: '`' :: '`' :: (lang ++ '\n' :: (c ++ '\n' :: '`' :: '`' :: '`' :: w)) : Chars))) =
      '\n' :: (c ++ '\n' :: '`' :: '`' :: '`' :: w) from by
    rw [show List.drop 3 (List.drop (List.length (['\n'] : Chars)) ('\n' :: '`' :: '`' :: '`' :: (lang ++ '\n' :: (c ++ '\n' :: '`' :: '`' :: '`' :: w)) : Chars)) =
      lang ++ '\n' :: (c ++ '\n' :: '`' :: '`' :: '`' :: w) from rfl]
    exact drop_len_append _ _]
  show List.findSome? (fun j =>
      if List.take 4 (List.drop j (c ++ ('\n' :: '`' :: '`' :: '`' :: w : Chars))) = ['\n', '`', '`', '`'] ∧
          (List.drop (j + 4) (c ++ ('\n' :: '`' :: '`' :: '`' :: w : Chars))).all isPySpace = true then
        some (List.take j (c ++ ('\n' :: '`' :: '`' :: '`' :: w : Chars)))
      else none)
    (List.range ((c ++ ('\n' :: '`' :: '`' :: '`' :: w : Chars)).length + 1)).reverse = some c
  have hlen : (c ++ ('\n' :: '`' :: '`' :: '`' :: w : Chars)).length = c.length + (4 + w.length) := by
    simp
    omega
  have happ := findSome_rev_range ((c ++ ('\n' :: '`' :: '`' :: '`' :: w : Chars)).length + 1) c.length
    (fun j =>
      if List.take 4 (List.drop j (c ++ ('\n' :: '`' :: '`' :: '`' :: w : Chars))) = ['\n', '`', '`', '`'] ∧
          (List.drop (j + 4) (c ++ ('\n' :: '`' :: '`' :: '`' :: w : Chars))).all isPySpace = true then
        some (List.take j (c ++ ('\n' :: '`' :: '`' :: '`' :: w : Chars)))
      else none)
    c (by omega) ?hnone ?hf
  case hf =>
    dsimp only
    rw [show List.drop c.length (c ++ ('\n' :: '`' :: '`' :: '`' :: w : Chars)) = ('\n' :: '`' :: '`' :: '`' :: w : Chars) from drop_len_append _ _]
    rw [show List.drop (c.length + 4) (c ++ ('\n' :: '`' :: '`' :: '`' :: w : Chars)) = w from by
      rw [← List.drop_drop, show List.drop c.length (c ++ ('\n' :: '`' :: '`' :: '`' :: w : Chars)) = ('\n' :: '`' :: '`' :: '`' :: w : Chars) from
        drop_len_append _ _]
      rfl]
    rw [if_pos ⟨rfl, List.all_eq_true.mpr hwws⟩]
    rw [take_len_append]
  case hnone =>
    intro k hk1 hk2
    dsimp only
    have hdrop : List.drop k (c ++ ('\n' :: '`' :: '`' :: '`' :: w : Chars)) = List.drop (k - c.length) ('\n' :: '`' :: '`' :: '`' :: w : Chars) := by
      rw [List.drop_append_eq_append_drop, List.drop_eq_nil_of_le (by omega),
        List.nil_append]
    rw [if_neg]
    intro hcond
    have h4 := hcond.1
    rw [hdrop] at h4
    by_cases h4le : k - c.length ≤ 3
    · have hge : 1 ≤ k - c.length := by omega
      interval_cases h9 : (k - c.length)
      · simp at h4
      · simp at h4
      · simp at h4
    · rw [show k - c.length = (k - c.length - 4) + 4 from by omega] at h4
      rw [show List.drop ((k - c.length - 4) + 4) ('\n' :: '`' :: '`' :: '`' :: w : Chars) =
        List.drop (k - c.length - 4) w from by
          rw [show (k - c.length - 4) + 4 = (k - c.length - 4) + 3 + 1 from by omega,
            List.drop_succ_cons,
            show (k - c.length - 4) + 3 = (k - c.length - 4) + 2 + 1 from by omega,
            List.drop_succ_cons,
            show (k - c.length - 4) + 2 = (k - c.length - 4) + 1 + 1 from by omega,
            List.drop_succ_cons, List.drop_succ_cons]] at h4
      have hmem : '`' ∈ List.take 4 (List.drop (k - c.length - 4) w) := by
        rw [h4]
        decide
      have : ('`' : Char) = '\n' :=
        hwall '`' (List.drop_subset _ _ (List.take_subset _ _ hmem))
      exact absurd this (by decide)
  exact happ

theorem joinDump_nil : joinDump [] = [] := by
  simp [joinDump, List.intercalate]

theorem joinDump_single (f : Chars × Chars × Chars) :
    joinDump [f] = renderDumpFile f.1 f.2.1 f.2.2 := by
  simp [joinDump, List.intercalate]

theorem joinDump_cons₂ (f g : Chars × Chars × Chars) (t : List (Chars × Chars × Chars)) :
    joinDump (f :: g :: t) =
      renderDumpFile f.1 f.2.1 f.2.2 ++ ['\n', '\n'] ++ joinDump (g :: t) := by
  simp [joinDump, List.intercalate, List.intersperse]

theorem renderDumpFile_eq (p lang c : Chars) :
    renderDumpFile p lang c =
      ('-' :: '-' :: '-' :: '\n' :: 'F' :: 'i' :: 'l' :: 'e' :: ':' :: ' ' ::
        (p ++ ['\n', '-', '-', '-'])) ++
      ('\n' :: '`' :: '`' :: '`' :: (lang ++ '\n' :: (c ++ ['\n', '`', '`', '`']))) := by
  simp [renderDumpFile, fileTag]

theorem renderDumpFile_eq₂ (p lang c : Chars) :
    renderDumpFile p lang c =
      ('-' :: '-' :: '-' :: '\n' :: 'F' :: 'i' :: 'l' :: 'e' :: ':' :: ' ' ::
        (p ++ ['\n', '-', '-'])) ++
      ('-' :: '\n' :: '`' :: '`' :: '`' ::
        (lang ++ '\n' :: (c ++ ['\n', '`', '`', '`']))) := by
  simp [renderDumpFile, fileTag]

theorem renderDumpFile_length (p lang c : Chars) :
    (renderDumpFile p lang c).length = 23 + p.length + lang.length + c.length := by
  simp [renderDumpFile, fileTag]
  omega

theorem renderDumpFile_ne_nil (p lang c : Chars) (s : Chars) :
    renderDumpFile p lang c ++ s ≠ [] := by
  rw [renderDumpFile_eq]
  simp
theorem findHeaders_joinDump : ∀ (files : List (Chars × Chars × Chars)) (pos : Nat),
    (∀ f ∈ files, GoodDumpFile f) →
    findHeadersF (joinDump files).length (joinDump files) pos true =
      dumpHeaderPositions pos files := by
  intro files
  induction files with
  | nil =>
    intro pos _
    rw [joinDump_nil]
    rfl
  | cons f rest ih =>
    intro pos hg
    obtain ⟨hp, hpnl, hps, hlnl, hcsub⟩ := hg f (by simp)
    match rest with
    | [] =>
      rw [joinDump_single]
      have hh : headerAt (renderDumpFile f.1 f.2.1 f.2.2) =
          some (14 + f.1.length, f.1) := by
        have h9 := headerAt_render f.1 f.2.1 f.2.2 hp hpnl hps []
        rwa [List.append_nil] at h9
      have hne : renderDumpFile f.1 f.2.1 f.2.2 ≠ [] := by
        have h9 := renderDumpFile_ne_nil f.1 f.2.1 f.2.2 []
        rwa [List.append_nil] at h9
      rw [findHeadersF_step _ pos (14 + f.1.length) f.1 hne hh (by omega)]
      have hdropR : (renderDumpFile f.1 f.2.1 f.2.2).drop (14 + f.1.length) =
          '\n' :: '`' :: '`' :: '`' ::
            (f.2.1 ++ '\n' :: (f.2.2 ++ ['\n', '`', '`', '`'])) := by
        rw [renderDumpFile_eq]
        rw [show 14 + f.1.length =
          ('-' :: '-' :: '-' :: '\n' :: 'F' :: 'i' :: 'l' :: 'e' :: ':' :: ' ' ::
            (f.1 ++ ['\n', '-', '-', '-']) : Chars).length from by simp; omega]
        exact drop_len_append _ _
      have hgetD : (renderDumpFile f.1 f.2.1 f.2.2).getD (14 + f.1.length - 1) ' ' =
          '-' := by
        rw [renderDumpFile_eq₂]
        rw [show 14 + f.1.length - 1 =
          ('-' :: '-' :: '-' :: '\n' :: 'F' :: 'i' :: 'l' :: 'e' :: ':' :: ' ' ::
            (f.1 ++ ['\n', '-', '-']) : Chars).length + 0 from by simp; omega]
        rw [getD_len_append]
        rfl
      rw [hdropR, hgetD]
      rw [show (('-' : Char) == '\n') = false from rfl]
      have hnone : ∀ i, i < ('\n' :: '`' :: '`' :: '`' ::
          (f.2.1 ++ '\n' :: (f.2.2 ++ ['\n', '`', '`', '`'])) : Chars).length →
          headerAt (('\n' :: '`' :: '`' :: '`' ::
            (f.2.1 ++ '\n' :: (f.2.2 ++ ['\n', '`', '`', '`'])) : Chars).drop i ++ []) =
            none := by
        intro i hi
        exact dumpTail_no_header f.2.1 f.2.2 [] [] hlnl hcsub (by simp) i
          (by simpa using hi)
      have hskip := findHeadersF_skip
        ('\n' :: '`' :: '`' :: '`' ::
          (f.2.1 ++ '\n' :: (f.2.2 ++ ['\n', '`', '`', '`'])))
        [] (pos + (14 + f.1.length)) false hnone
      rw [List.append_nil] at hskip
      rw [show (renderDumpFile f.1 f.2.1 f.2.2).length - (14 + f.1.length) =
        ('\n' :: '`' :: '`' :: '`' ::
          (f.2.1 ++ '\n' :: (f.2.2 ++ ['\n', '`', '`', '`'])) : Chars).length +
          ([] : Chars).length from by
        rw [renderDumpFile_length]
        simp
        omega]
      rw [hskip]
      rfl
    | g :: t =>
      rw [joinDump_cons₂]
      have hG : renderDumpFile f.1 f.2.1 f.2.2 ++ ['\n', '\n'] ++ joinDump (g :: t) =
          renderDumpFile f.1 f.2.1 f.2.2 ++ (['\n', '\n'] ++ joinDump (g :: t)) := by
        rw [List.append_assoc]
      have hh : headerAt (renderDumpFile f.1 f.2.1 f.2.2 ++ ['\n', '\n'] ++ joinDump (g :: t)) = some (14 + f.1.length, f.1) := by
        rw [hG]
        exact headerAt_render f.1 f.2.1 f.2.2 hp hpnl hps _
      have hne : renderDumpFile f.1 f.2.1 f.2.2 ++ ['\n', '\n'] ++ joinDump (g :: t) ≠ [] := by
        rw [hG]
        exact renderDumpFile_ne_nil _ _ _ _
      rw [findHeadersF_step _ pos (14 + f.1.length) f.1 hne hh (by omega)]
      have hdropR : (renderDumpFile f.1 f.2.1 f.2.2 ++ ['\n', '\n'] ++ joinDump (g :: t)).drop (14 + f.1.length) = ('\n' :: '`' :: '`' :: '`' :: (f.2.1 ++ '\n' :: (f.2.2 ++ ['\n', '`', '`', '`', '\n', '\n'])) : Chars) ++ joinDump (g :: t) := by
        rw [hG, renderDumpFile_eq, List.append_assoc]
        rw [show 14 + f.1.length =
          ('-' :: '-' :: '-' :: '\n' :: 'F' :: 'i' :: 'l' :: 'e' :: ':' :: ' ' ::
            (f.1 ++ ['\n', '-', '-', '-']) : Chars).length from by simp; omega]
        rw [drop_len_append]
        simp
      have hgetD : (renderDumpFile f.1 f.2.1 f.2.2 ++ ['\n', '\n'] ++ joinDump (g :: t)).getD (14 + f.1.length - 1) ' ' = '-' := by
        rw [hG, renderDumpFile_eq₂, List.append_assoc]
        rw [show 14 + f.1.length - 1 =
          ('-' :: '-' :: '-' :: '\n' :: 'F' :: 'i' :: 'l' :: 'e' :: ':' :: ' ' ::
            (f.1 ++ ['\n', '-', '-']) : Chars).length + 0 from by simp; omega]
        rw [getD_len_append]
        rfl
      rw [hdropR, hgetD]
      rw [show (('-' : Char) == '\n') = false from rfl]
      have hnone : ∀ i, i < (('\n' :: '`' :: '`' :: '`' :: (f.2.1 ++ '\n' :: (f.2.2 ++ ['\n', '`', '`', '`', '\n', '\n'])) : Chars)).length →
          headerAt ((('\n' :: '`' :: '`' :: '`' :: (f.2.1 ++ '\n' :: (f.2.2 ++ ['\n', '`', '`', '`', '\n', '\n'])) : Chars)).drop i ++ joinDump (g :: t)) = none := by
        intro i hi
        exact dumpTail_no_header f.2.1 f.2.2 ['\n', '\n'] (joinDump (g :: t)) hlnl hcsub
          (by decide) i (by simpa using hi)
      have hskip := findHeadersF_skip ('\n' :: '`' :: '`' :: '`' :: (f.2.1 ++ '\n' :: (f.2.2 ++ ['\n', '`', '`', '`', '\n', '\n'])) : Chars) (joinDump (g :: t))
        (pos + (14 + f.1.length)) false hnone
      rw [show (renderDumpFile f.1 f.2.1 f.2.2 ++ ['\n', '\n'] ++ joinDump (g :: t)).length - (14 + f.1.length) =
        (('\n' :: '`' :: '`' :: '`' :: (f.2.1 ++ '\n' :: (f.2.2 ++ ['\n', '`', '`', '`', '\n', '\n'])) : Chars)).length + (joinDump (g :: t)).length from by
          simp [renderDumpFile_length]
          omega]
      rw [hskip]
      have hfold : (('\n' :: '`' :: '`' :: '`' :: (f.2.1 ++ '\n' :: (f.2.2 ++ ['\n', '`', '`', '`', '\n', '\n'])) : Chars)).foldl (fun _ c => c == '\n') false = true := by
        rw [show ('\n' :: '`' :: '`' :: '`' :: (f.2.1 ++ '\n' :: (f.2.2 ++ ['\n', '`', '`', '`', '\n', '\n'])) : Chars) = ('\n' :: '`' :: '`' :: '`' :: (f.2.1 ++ '\n' :: (f.2.2 ++ ['\n', '`', '`', '`', '\n'])) : Chars) ++ ['\n'] from by simp]
        exact foldl_newline_flag _ _
      rw [hfold]
      rw [show pos + (14 + f.1.length) + (('\n' :: '`' :: '`' :: '`' :: (f.2.1 ++ '\n' :: (f.2.2 ++ ['\n', '`', '`', '`', '\n', '\n'])) : Chars)).length =
        pos + ((renderDumpFile f.1 f.2.1 f.2.2).length + 2) from by
          simp [renderDumpFile_length]
          omega]
      rw [ih _ (fun x hx => hg x (by simp [hx]))]
      rfl
theorem collectDump_joinDump : ∀ (files : List (Chars × Chars × Chars)) (A : Chars),
    (∀ f ∈ files, GoodDumpFile f) →
    collectDump (A ++ joinDump files) (dumpHeaderPositions A.length files) =
      files.map (fun f => (f.1, f.2.2)) := by
  intro files
  induction files with
  | nil =>
    intro A _
    rfl
  | cons f rest ih =>
    intro A hg
    obtain ⟨hp, hpnl, hps, hlnl, hcsub⟩ := hg f (by simp)
    match rest with
    | [] =>
      rw [joinDump_single]
      rw [show dumpHeaderPositions A.length [f] =
        [(A.length, A.length + (14 + f.1.length), f.1)] from rfl]
      rw [collectDump]
      have hsl : pySlice (A ++ renderDumpFile f.1 f.2.1 f.2.2)
          (A.length + (14 + f.1.length)) ((A ++ renderDumpFile f.1 f.2.1 f.2.2).length) =
          ('\n' :: '`' :: '`' :: '`' :: (f.2.1 ++ '\n' :: (f.2.2 ++ ['\n', '`', '`', '`'])) : Chars) := by
        rw [show A ++ renderDumpFile f.1 f.2.1 f.2.2 = (A ++ ('-' :: '-' :: '-' :: '\n' :: 'F' :: 'i' :: 'l' :: 'e' :: ':' :: ' ' :: (f.1 ++ ['\n', '-', '-', '-']) : Chars)) ++ ('\n' :: '`' :: '`' :: '`' :: (f.2.1 ++ '\n' :: (f.2.2 ++ ['\n', '`', '`', '`'])) : Chars) from by
          rw [renderDumpFile_eq, List.append_assoc]]
        rw [show A.length + (14 + f.1.length) = (A ++ ('-' :: '-' :: '-' :: '\n' :: 'F' :: 'i' :: 'l' :: 'e' :: ':' :: ' ' :: (f.1 ++ ['\n', '-', '-', '-']) : Chars)).length from by simp; omega]
        rw [show ((A ++ ('-' :: '-' :: '-' :: '\n' :: 'F' :: 'i' :: 'l' :: 'e' :: ':' :: ' ' :: (f.1 ++ ['\n', '-', '-', '-']) : Chars)) ++ ('\n' :: '`' :: '`' :: '`' :: (f.2.1 ++ '\n' :: (f.2.2 ++ ['\n', '`', '`', '`'])) : Chars)).length = (A ++ ('-' :: '-' :: '-' :: '\n' :: 'F' :: 'i' :: 'l' :: 'e' :: ':' :: ' ' :: (f.1 ++ ['\n', '-', '-', '-']) : Chars)).length + (('\n' :: '`' :: '`' :: '`' :: (f.2.1 ++ '\n' :: (f.2.2 ++ ['\n', '`', '`', '`'])) : Chars)).length from by
          simp
          omega]
        rw [pySlice_from_len]
        exact List.take_of_length_le (by omega)
      rw [hsl]
      rw [codeExtract_render f.2.1 f.2.2 [] hlnl (by simp)]
      rw [show collectDump (A ++ renderDumpFile f.1 f.2.1 f.2.2) [] = [] from rfl]
      rw [hps]
      rfl
    | g :: t =>
      rw [joinDump_cons₂]
      rw [show dumpHeaderPositions A.length (f :: g :: t) =
        (A.length, A.length + (14 + f.1.length), f.1) ::
          dumpHeaderPositions
            (A.length + ((renderDumpFile f.1 f.2.1 f.2.2).length + 2)) (g :: t) from rfl]
      rw [show dumpHeaderPositions
          (A.length + ((renderDumpFile f.1 f.2.1 f.2.2).length + 2)) (g :: t) =
        (A.length + ((renderDumpFile f.1 f.2.1 f.2.2).length + 2),
          A.length + ((renderDumpFile f.1 f.2.1 f.2.2).length + 2) + (14 + g.1.length),
          g.1) ::
          dumpHeaderPositions
            (A.length + ((renderDumpFile f.1 f.2.1 f.2.2).length + 2) +
              ((renderDumpFile g.1 g.2.1 g.2.2).length + 2)) t from rfl]
      rw [collectDump]
      have hsl : pySlice (A ++ (renderDumpFile f.1 f.2.1 f.2.2 ++ ['\n', '\n'] ++ joinDump (g :: t)))
          (A.length + (14 + f.1.length)) (A.length + ((renderDumpFile f.1 f.2.1 f.2.2).length + 2)) = ('\n' :: '`' :: '`' :: '`' :: (f.2.1 ++ '\n' :: (f.2.2 ++ ['\n', '`', '`', '`', '\n', '\n'])) : Chars) := by
        rw [show A ++ (renderDumpFile f.1 f.2.1 f.2.2 ++ ['\n', '\n'] ++ joinDump (g :: t)) =
          (A ++ ('-' :: '-' :: '-' :: '\n' :: 'F' :: 'i' :: 'l' :: 'e' :: ':' :: ' ' :: (f.1 ++ ['\n', '-', '-', '-']) : Chars)) ++ ('\n' :: '`' :: '`' :: '`' :: (f.2.1 ++ '\n' :: (f.2.2 ++ ['\n', '`', '`', '`', '\n', '\n'])) : Chars) ++ joinDump (g :: t) from by
            rw [renderDumpFile_eq]
            simp]
        rw [show A.length + (14 + f.1.length) = (A ++ ('-' :: '-' :: '-' :: '\n' :: 'F' :: 'i' :: 'l' :: 'e' :: ':' :: ' ' :: (f.1 ++ ['\n', '-', '-', '-']) : Chars)).length from by simp; omega]
        rw [show A.length + ((renderDumpFile f.1 f.2.1 f.2.2).length + 2) = (A ++ ('-' :: '-' :: '-' :: '\n' :: 'F' :: 'i' :: 'l' :: 'e' :: ':' :: ' ' :: (f.1 ++ ['\n', '-', '-', '-']) : Chars)).length + (('\n' :: '`' :: '`' :: '`' :: (f.2.1 ++ '\n' :: (f.2.2 ++ ['\n', '`', '`', '`', '\n', '\n'])) : Chars)).length from by
          simp [renderDumpFile_length]
          omega]
        exact pySlice_exact _ _ _
      rw [hsl]
      rw [codeExtract_render f.2.1 f.2.2 ['\n', '\n'] hlnl (by decide)]
      rw [hps]
      rw [show ((A.length + ((renderDumpFile f.1 f.2.1 f.2.2).length + 2),
          A.length + ((renderDumpFile f.1 f.2.1 f.2.2).length + 2) + (14 + g.1.length), g.1) ::
          dumpHeaderPositions
            (A.length + ((renderDumpFile f.1 f.2.1 f.2.2).length + 2) +
              ((renderDumpFile g.1 g.2.1 g.2.2).length + 2)) t) =
        dumpHeaderPositions (A.length + ((renderDumpFile f.1 f.2.1 f.2.2).length + 2)) (g :: t) from rfl]
      have ihg := ih (A ++ (renderDumpFile f.1 f.2.1 f.2.2 ++ ['\n', '\n'])) (fun x hx => hg x (by simp [hx]))
      rw [show (A ++ (renderDumpFile f.1 f.2.1 f.2.2 ++ ['\n', '\n'])) ++ joinDump (g :: t) =
        A ++ (renderDumpFile f.1 f.2.1 f.2.2 ++ ['\n', '\n'] ++ joinDump (g :: t)) from by simp] at ihg
      rw [show (A ++ (renderDumpFile f.1 f.2.1 f.2.2 ++ ['\n', '\n'])).length =
        A.length + ((renderDumpFile f.1 f.2.1 f.2.2).length + 2) from by simp] at ihg
      rw [ihg]
      rfl


/-- **C9** (amended): the dump text `dump_repo.py` writes is the `"\n\n"`-join
of the rendered files, not their plain concatenation, and with that join the
format round-trips: for every finite list of files whose paths are nonempty,
newline-free and unchanged by `strip()`, whose language tags are newline-free,
and whose contents never contain the substring `"File:"` (contents may contain
literal `---` lines and fence sequences), `parse_dump_file` on the joined dump
returns exactly the original (path, content) pairs in order. -/
theorem c9_join_roundtrip (files : List (Chars × Chars × Chars))
    (h : ∀ f ∈ files, GoodDumpFile f) :
    parseDumpText (joinDump files) = files.map (fun f => (f.1, f.2.2)) := by
  unfold parseDumpText findHeaders
  rw [findHeaders_joinDump files 0 h]
  have h2 := collectDump_joinDump files [] h
  rw [List.nil_append] at h2
  rw [show ([] : Chars).length = 0 from rfl] at h2
  exact h2

theorem c9_join_roundtrip_witness :
    (∀ f ∈ ([("a.txt".toList, ([] : Chars), "x\n---\ny".toList),
        ("b.md".toList, "md".toList, "```\nz\n```".toList)] :
          List (Chars × Chars × Chars)), GoodDumpFile f) ∧
    parseDumpText (joinDump [("a.txt".toList, ([] : Chars), "x\n---\ny".toList),
        ("b.md".toList, "md".toList, "```\nz\n```".toList)]) =
      [("a.txt".toList, "x\n---\ny".toList), ("b.md".toList, "```\nz\n```".toList)] :=
  ⟨by decide, by
    rw [c9_join_roundtrip _ (by decide)]
    rfl⟩

end AiTools
